import Mathlib

/-!
Verification of the Mini_ZKPs constraint-system core.

This file gives a shallow embedding, in Lean 4, of the Rust sources
`field.rs`, `r1cs.rs`, `circuit.rs` and `merkle_tree.rs`:

* `FieldElement` models the BN128-scalar-field wrapper: `new` reduces with
  Rust's truncated remainder (`Int.tmod`) and then adds the modulus back when
  the remainder is negative, exactly as `FieldElement::new` does.
* `R1CS` / `Variable` / `Constraint` model the constraint system; the witness
  values and coefficients are arbitrary-precision integers (`BigInt` in the
  source, `Int` here).  `R1CS.is_satisfied` is the satisfaction loop of
  `r1cs.rs`, parameterised by the hash closure exactly as in the source.
* `Circuit.generate_proof` is modelled as an explicit state-passing pass over
  the gate list.  The state `ProofState` carries both the circuit's own input
  vector (the memory behind the `&self` borrow) and the freshly built `R1CS`,
  so that the source's single mutation site (`r1cs.variables'[*output].value =
  computed_hash`) is visible as an update of the `r1cs` component while the
  `inputs` component is threaded through unchanged.  Rust panics (raw
  out-of-bounds indexing, `expect` on a missing hash capability) are modelled
  by the `Except` error channel, whose payload also records the state at the
  moment of the panic.
* The hash capabilities (`Box<dyn HashFunction>`, the Poseidon permutation)
  are external code; they enter the model as function parameters
  (`Int → Int → Int` over witness values, `FieldElement → FieldElement →
  FieldElement` for the Merkle tree), so every theorem quantifies over the
  hash function.
* `MerkleTree.new` / `MerkleTree.get_proof` model `merkle_tree.rs`; the
  `while current_level.len() > 1` loop is embedded with an explicit fuel
  argument equal to the initial length, which strictly dominates the number
  of iterations because the level length strictly decreases.
-/

namespace ZKP

/-- BN128 scalar field size, the `MODULUS_STR` constant of `field.rs`. -/
def MODULUS : Int :=
  21888242871839275222246405745257275088548364400416034343698204186575808495617

/-- Wrapper for a field value, `FieldElement` of `field.rs`. -/
structure FieldElement where
  value : Int
deriving DecidableEq, Repr

/-- Translation of `FieldElement::new`: Rust's `%` on `BigInt` is the
truncated remainder (`Int.tmod`); a negative remainder is corrected by
adding the modulus. -/
def FieldElement.new (x : Int) : FieldElement :=
  let v := x.tmod MODULUS
  if v < 0 then ⟨v + MODULUS⟩ else ⟨v⟩

/-- Translation of `FieldElement::from_i32` (an `i32` is an integer). -/
def FieldElement.from_i32 (v : Int) : FieldElement :=
  FieldElement.new v

/-- Translation of `impl Add for FieldElement`. -/
def FieldElement.add (a b : FieldElement) : FieldElement :=
  FieldElement.new (a.value + b.value)

/-- Translation of `impl Sub for FieldElement`. -/
def FieldElement.sub (a b : FieldElement) : FieldElement :=
  FieldElement.new (a.value - b.value)

/-- Translation of `impl Mul for FieldElement`. -/
def FieldElement.mul (a b : FieldElement) : FieldElement :=
  FieldElement.new (a.value * b.value)

/-- A witness slot, `Variable` of `r1cs.rs`: an index paired with a value. -/
structure Variable where
  index : Nat
  value : Int
deriving DecidableEq, Repr

/-- The operation tag of a constraint, `Operation` of `r1cs.rs`. -/
inductive Operation where
  | add
  | mul
  | hash
deriving DecidableEq, Repr

/-- A constraint, `Constraint` of `r1cs.rs`: three weighted term lists and an
operation tag.  Each term embeds a full `Variable` (a clone, in the source)
together with its coefficient. -/
structure Constraint where
  left : List (Variable × Int)
  right : List (Variable × Int)
  output : List (Variable × Int)
  operation : Operation
deriving DecidableEq, Repr

/-- The constraint system, `R1CS` of `r1cs.rs`. -/
structure R1CS where
  variables' : List Variable
  constraints : List Constraint
deriving DecidableEq, Repr

/-- The weighted sum `Σ value·coeff` computed by `is_satisfied` for each term
list, with the iterator's left-to-right accumulation. -/
def weightedSum (terms : List (Variable × Int)) : Int :=
  terms.foldl (fun acc t => acc + t.1.value * t.2) 0

/-- The per-constraint check of `R1CS::is_satisfied`: `Add ⇒ L+R==O`,
`Mul ⇒ L*R==O`, `Hash ⇒ hash_fn(L,R)==O`. -/
def constraintHolds (hashFn : Int → Int → Int) (c : Constraint) : Bool :=
  let leftVal := weightedSum c.left
  let rightVal := weightedSum c.right
  let outputVal := weightedSum c.output
  match c.operation with
  | .add => leftVal + rightVal == outputVal
  | .mul => leftVal * rightVal == outputVal
  | .hash => hashFn leftVal rightVal == outputVal

/-- The constraint loop of `R1CS::is_satisfied`: early `return false` on the
first failing constraint, `true` once the list is exhausted. -/
def satLoop (hashFn : Int → Int → Int) : List Constraint → Bool
  | [] => true
  | c :: rest => if constraintHolds hashFn c then satLoop hashFn rest else false

/-- Translation of `R1CS::is_satisfied`. -/
def R1CS.is_satisfied (r : R1CS) (hashFn : Int → Int → Int) : Bool :=
  satLoop hashFn r.constraints

/-- A gate, `Gate` of `circuit.rs`: three wire indices. -/
inductive Gate where
  | add (a b out : Nat)
  | mul (a b out : Nat)
  | hash (a b out : Nat)
deriving DecidableEq, Repr

/-- The circuit, `Circuit` of `circuit.rs`.  The optional hash capability
(`Option<Box<dyn HashFunction>>`) is modelled by its action on witness
values. -/
structure Circuit where
  hash_function : Option (Int → Int → Int)
  inputs : List FieldElement
  gates : List Gate
  outputs : List FieldElement

/-- Translation of `Circuit::get_input`. -/
def Circuit.get_input (c : Circuit) (index : Nat) : Option FieldElement :=
  c.inputs[index]?

/-- The two panics `generate_proof` can hit: a raw `index out of bounds`
panic from `Vec` indexing (it carries no gate or index information), and the
`expect` panic when a Hash gate is used with no hash capability. -/
inductive PanicKind where
  | indexOutOfBounds
  | missingHashFunction
deriving DecidableEq, Repr

/-- The mutable memory of one `generate_proof` call: the circuit's own input
vector (behind the `&self` borrow) together with the `R1CS` under
construction. -/
structure ProofState where
  inputs : List FieldElement
  r1cs : R1CS
deriving DecidableEq, Repr

deriving instance DecidableEq for Except

/-- The coefficient `FieldElement::from_i32(1)` attached to every term that
`generate_proof` emits, as a witness-value integer. -/
def coeffOne : Int :=
  (FieldElement.from_i32 1).value

/-- The assignment `variables[i].value = v` (index kept, value replaced); the
`none` branch is never taken by `stepGate`, which indexes first. -/
def setValue (vs : List Variable) (i : Nat) (v : Int) : List Variable :=
  match vs[i]? with
  | some old => vs.set i ⟨old.index, v⟩
  | none => vs

/-- One iteration of the `for gate in &self.gates` loop of
`Circuit::generate_proof`.  Every `Vec` indexing of the source is guarded: a
miss produces the `indexOutOfBounds` panic, whose payload is the state at
that moment.  For a Hash gate the source reads `self.inputs[*a]` and
`self.inputs[*b]`, calls the capability (panicking if absent), performs the
guarded assignment `if *output < r1cs.variables.len() { .. }` followed by the
unconditional assignment `r1cs.variables'[*output].value = computed_hash`, and
only then emits the constraint from clones of the current variables. -/
def stepGate (hf : Option (Int → Int → Int)) (st : ProofState) (g : Gate) :
    Except (PanicKind × ProofState) ProofState :=
  match g with
  | .add a b out =>
    match st.r1cs.variables'[a]?, st.r1cs.variables'[b]?, st.r1cs.variables'[out]? with
    | some va, some vb, some vo =>
      .ok ⟨st.inputs, ⟨st.r1cs.variables', st.r1cs.constraints ++
        [⟨[(va, coeffOne)], [(vb, coeffOne)], [(vo, coeffOne)], .add⟩]⟩⟩
    | _, _, _ => .error (.indexOutOfBounds, st)
  | .mul a b out =>
    match st.r1cs.variables'[a]?, st.r1cs.variables'[b]?, st.r1cs.variables'[out]? with
    | some va, some vb, some vo =>
      .ok ⟨st.inputs, ⟨st.r1cs.variables', st.r1cs.constraints ++
        [⟨[(va, coeffOne)], [(vb, coeffOne)], [(vo, coeffOne)], .mul⟩]⟩⟩
    | _, _, _ => .error (.indexOutOfBounds, st)
  | .hash a b out =>
    match st.inputs[a]?, st.inputs[b]? with
    | some ia, some ib =>
      match hf with
      | none => .error (.missingHashFunction, st)
      | some f =>
        let computed := f ia.value ib.value
        let vars1 := if out < st.r1cs.variables'.length
          then setValue st.r1cs.variables' out computed
          else st.r1cs.variables'
        if out < vars1.length then
          let vars2 := setValue vars1 out computed
          match vars2[a]?, vars2[b]?, vars2[out]? with
          | some va, some vb, some vo =>
            .ok ⟨st.inputs, ⟨vars2, st.r1cs.constraints ++
              [⟨[(va, coeffOne)], [(vb, coeffOne)], [(vo, coeffOne)], .hash⟩]⟩⟩
          | _, _, _ => .error (.indexOutOfBounds, ⟨st.inputs, ⟨vars2, st.r1cs.constraints⟩⟩)
        else
          .error (.indexOutOfBounds, ⟨st.inputs, ⟨vars1, st.r1cs.constraints⟩⟩)
    | _, _ => .error (.indexOutOfBounds, st)

/-- The whole gate loop of `generate_proof`, stopping at the first panic. -/
def runGates (hf : Option (Int → Int → Int)) :
    ProofState → List Gate → Except (PanicKind × ProofState) ProofState
  | st, [] => .ok st
  | st, g :: gs =>
    match stepGate hf st g with
    | .ok st1 => runGates hf st1 gs
    | .error e => .error e

/-- The validation loop run by `generate_proof` after compiling the gates.
The closure the source passes to `is_satisfied` re-reads the optional hash
capability on every call and panics (`expect`) when it is absent, so the
`Hash` arm with no capability is a panic, not a boolean. -/
def satLoopChecked (hf : Option (Int → Int → Int)) :
    List Constraint → Except PanicKind Bool
  | [] => .ok true
  | c :: rest =>
    match c.operation with
    | .add =>
      if weightedSum c.left + weightedSum c.right == weightedSum c.output
      then satLoopChecked hf rest else .ok false
    | .mul =>
      if weightedSum c.left * weightedSum c.right == weightedSum c.output
      then satLoopChecked hf rest else .ok false
    | .hash =>
      match hf with
      | none => .error .missingHashFunction
      | some f =>
        if f (weightedSum c.left) (weightedSum c.right) == weightedSum c.output
        then satLoopChecked hf rest else .ok false

/-- The initial witness of `generate_proof`: every input is cloned into a
`Variable` whose index is its position (`self.inputs.iter().enumerate()`). -/
def mkVariables (inputs : List FieldElement) : List Variable :=
  inputs.enum.map fun p => ⟨p.1, p.2.value⟩

/-- The state at the top of `generate_proof`: the borrowed inputs plus a
fresh `R1CS` whose variables are the cloned inputs. -/
def initState (c : Circuit) : ProofState :=
  ⟨c.inputs, ⟨mkVariables c.inputs, []⟩⟩

/-- Translation of `Circuit::generate_proof`, up to the out-of-scope file
I/O: the result is the final memory state together with the satisfiability
boolean, or the panic that interrupted the pass. -/
def Circuit.generate_proof (c : Circuit) :
    Except (PanicKind × ProofState) (ProofState × Bool) :=
  match runGates c.hash_function (initState c) c.gates with
  | .error e => .error e
  | .ok st =>
    match satLoopChecked c.hash_function st.r1cs.constraints with
    | .error k => .error (k, st)
    | .ok v => .ok (st, v)

/-- Rebuilding of one constraint term from the current witness: the embedded
variable's value is replaced by the value stored at the same index of the
witness vector (used to state the claim that embedded copies always agree
with the current witness). -/
def refreshTerm (vars : List Variable) (t : Variable × Int) : Variable × Int :=
  match vars[t.1.index]? with
  | some v => (⟨t.1.index, v.value⟩, t.2)
  | none => t

/-- `refreshTerm` applied to all three term lists of a constraint. -/
def refreshConstraint (vars : List Variable) (c : Constraint) : Constraint :=
  ⟨c.left.map (refreshTerm vars), c.right.map (refreshTerm vars),
   c.output.map (refreshTerm vars), c.operation⟩

/-- The same `R1CS` with every constraint-embedded variable value replaced by
the current witness value at its index. -/
def refreshR1CS (r : R1CS) : R1CS :=
  ⟨r.variables', r.constraints.map (refreshConstraint r.variables')⟩

/-- The witness index a gate writes to: only a Hash gate writes (to its
`out` wire); Add and Mul are check-only. -/
def Gate.writeIdx : Gate → Option Nat
  | .hash _ _ out => some out
  | _ => none

/-- The wire indices a gate mentions. -/
def Gate.refs : Gate → List Nat
  | .add a b out => [a, b, out]
  | .mul a b out => [a, b, out]
  | .hash a b out => [a, b, out]

/-- One pass of the pairing loop in `MerkleTree::new`: adjacent elements are
hashed left-to-right (`step_by(2)`), and the last element of an odd-length
level is paired with itself. -/
def nextLevel (hash : FieldElement → FieldElement → FieldElement) :
    List FieldElement → List FieldElement
  | [] => []
  | [x] => [hash x x]
  | x :: y :: rest => hash x y :: nextLevel hash rest

/-- The `while current_level.len() > 1` loop of `MerkleTree::new`,
accumulating every level starting from the leaves.  The fuel argument (the
initial level length in `buildLevels`) bounds the iteration count, since each
pass at least halves a length that is `> 1`. -/
def buildLevelsAux (hash : FieldElement → FieldElement → FieldElement) :
    Nat → List FieldElement → List (List FieldElement)
  | 0, current => [current]
  | fuel + 1, current =>
    if current.length > 1 then
      current :: buildLevelsAux hash fuel (nextLevel hash current)
    else [current]

/-- All levels of the tree, level 0 being the leaves. -/
def buildLevels (hash : FieldElement → FieldElement → FieldElement)
    (leaves : List FieldElement) : List (List FieldElement) :=
  buildLevelsAux hash leaves.length leaves

/-- The tree of `merkle_tree.rs`: leaves, all levels, and the root. -/
structure MerkleTree where
  leaves : List FieldElement
  levels : List (List FieldElement)
  root : FieldElement
deriving DecidableEq, Repr

/-- Translation of `MerkleTree::new`.  The hash capability (a Poseidon
instance in the source, external code here) is a parameter.  The final
`current_level[0]` indexing panics on an empty leaf vector; this is the
`none` result. -/
def MerkleTree.new (hash : FieldElement → FieldElement → FieldElement)
    (leaves : List FieldElement) : Option MerkleTree :=
  let levels := buildLevels hash leaves
  match levels.getLast? with
  | some lastLevel =>
    match lastLevel[0]? with
    | some r => some ⟨leaves, levels, r⟩
    | none => none
  | none => none

/-- The sibling selection of one `get_proof` iteration: for an even index
the sibling is `level[index + 1]` when that exists and `level[index]` itself
otherwise; for an odd index it is `level[index - 1]`.  An out-of-range read
(impossible for a valid leaf index) is `none`, modelling the panic. -/
def siblingAt (level : List FieldElement) (index : Nat) : Option FieldElement :=
  if index % 2 == 0 then
    if index + 1 < level.length then level[index + 1]? else level[index]?
  else level[index - 1]?

/-- The level walk of `MerkleTree::get_proof`: one sibling per level, the
index halving after each level. -/
def getProofGo : List (List FieldElement) → Nat → Option (List FieldElement)
  | [], _ => some []
  | level :: rest, index =>
    match siblingAt level index with
    | some s =>
      match getProofGo rest (index / 2) with
      | some p => some (s :: p)
      | none => none
    | none => none

/-- Translation of `MerkleTree::get_proof`: the walk runs over
`levels[0..levels.len() - 1]`, excluding the root level. -/
def MerkleTree.get_proof (t : MerkleTree) (index : Nat) : Option (List FieldElement) :=
  getProofGo (t.levels.take (t.levels.length - 1)) index

/-- Placeholder element for stating in-range list reads via `List.getD`. -/
def dummyF : FieldElement := ⟨0⟩

/-- A concrete hash capability for examples: distinguishable from addition. -/
def hfAddOne : Int → Int → Int := fun a b => a + b + 1

/-- A concrete hash capability for examples: plain addition (the trivial
additive test hash of the specification). -/
def hfSum : Int → Int → Int := fun a b => a + b

/-- A circuit whose Hash gate overwrites witness slot 2 after an Add
constraint has already embedded a clone of that slot. -/
def cexStale : Circuit :=
  ⟨some hfAddOne,
   [FieldElement.from_i32 1, FieldElement.from_i32 2, FieldElement.from_i32 3],
   [Gate.add 0 1 2, Gate.hash 0 1 2], []⟩

/-- A circuit whose Hash gate writes its own input wire (`out = a`). -/
def cexSelfHash : Circuit :=
  ⟨some hfAddOne, [FieldElement.from_i32 0, FieldElement.from_i32 0],
   [Gate.hash 0 1 0], []⟩

/-- A well-formed single-Hash-gate circuit. -/
def hashDemo : Circuit :=
  ⟨some hfAddOne,
   [FieldElement.from_i32 1, FieldElement.from_i32 2, FieldElement.from_i32 0],
   [Gate.hash 0 1 2], []⟩

/-- A circuit whose Hash gate's `out` wire (5) was never registered as an
input (only indices 0 and 1 exist). -/
def cexOOB : Circuit :=
  ⟨some hfAddOne, [FieldElement.from_i32 1, FieldElement.from_i32 2],
   [Gate.hash 0 1 5], []⟩

/-- The addition demo circuit of `main.rs`: inputs 10, 20, 30 and the gate
`Add(0, 1, 2)`, no hash capability. -/
def addDemo : Circuit :=
  ⟨none,
   [FieldElement.from_i32 10, FieldElement.from_i32 20, FieldElement.from_i32 30],
   [Gate.add 0 1 2], []⟩

/-- A concrete constraint system with one trivially satisfied Add
constraint. -/
def demoR1CS : R1CS :=
  ⟨[], [⟨[], [], [], Operation.add⟩]⟩

/-- Three concrete leaves for Merkle examples. -/
def leaves3 : List FieldElement :=
  [FieldElement.from_i32 1, FieldElement.from_i32 2, FieldElement.from_i32 3]

/-- The tree `MerkleTree.new FieldElement.add leaves3` evaluates to: levels
`[[1,2,3],[3,6],[9]]` under the additive hash. -/
def tree3 : MerkleTree :=
  ⟨leaves3,
   [leaves3, [FieldElement.from_i32 3, FieldElement.from_i32 6],
    [FieldElement.from_i32 9]],
   FieldElement.from_i32 9⟩

theorem modulus_pos : (0 : Int) < MODULUS := by
  unfold MODULUS
  norm_num

/-- Rust's truncated remainder followed by the negative-fix equals the
mathematical (Euclidean) remainder, for a positive modulus. -/
theorem tmod_fix_eq_emod (x M : Int) (hM : 0 < M) :
    (if x.tmod M < 0 then x.tmod M + M else x.tmod M) = x % M := by
  have key : x.tmod M % M = x % M := by
    conv_rhs => rw [← Int.tmod_add_tdiv x M]
    rw [Int.add_mul_emod_self_left]
  rcases le_or_lt 0 (x.tmod M) with h | h
  · rw [if_neg (not_lt.2 h), ← key,
      Int.emod_eq_of_lt h (Int.tmod_lt_of_pos x hM)]
  · have hlow : -M < x.tmod M := by
      obtain ⟨Mn, rfl⟩ := Int.eq_ofNat_of_zero_le (le_of_lt hM)
      match x with
      | .ofNat n =>
        exact absurd h (not_lt.2 (Int.tmod_nonneg _ (Int.ofNat_nonneg n)))
      | .negSucc n =>
        have heq : (Int.negSucc n).tmod (Mn : Int) = -((n + 1) % Mn : Nat) := rfl
        have hMn : 0 < Mn := by exact_mod_cast hM
        have hmod : (n + 1) % Mn < Mn := Nat.mod_lt _ hMn
        omega
    rw [if_pos h, ← key]
    have h0 : 0 ≤ x.tmod M + M := by omega
    have h1 : x.tmod M + M < M := by omega
    calc x.tmod M + M = (x.tmod M + M) % M := (Int.emod_eq_of_lt h0 h1).symm
      _ = x.tmod M % M := Int.add_emod_self

/-- The value stored by `FieldElement::new` is the Euclidean remainder. -/
theorem fieldNew_val (x : Int) : (FieldElement.new x).value = x % MODULUS := by
  have h := tmod_fix_eq_emod x MODULUS modulus_pos
  show (if x.tmod MODULUS < 0 then (⟨x.tmod MODULUS + MODULUS⟩ : FieldElement)
        else ⟨x.tmod MODULUS⟩).value = x % MODULUS
  rw [apply_ite FieldElement.value]
  simpa using h

/-- C7.  `FieldElement::new` always lands in the canonical range
`[0, MODULUS)`, is invariant under adding the modulus, and each arithmetic
operation (`add`, `sub`, `mul`) produces a value in the canonical range. -/
theorem C7_canonical_range : ∀ x : Int,
    (0 ≤ (FieldElement.new x).value ∧ (FieldElement.new x).value < MODULUS ∧
      FieldElement.new x = FieldElement.new (x + MODULUS)) ∧
    ∀ a b : FieldElement,
      (0 ≤ (a.add b).value ∧ (a.add b).value < MODULUS) ∧
      (0 ≤ (a.sub b).value ∧ (a.sub b).value < MODULUS) ∧
      (0 ≤ (a.mul b).value ∧ (a.mul b).value < MODULUS) := by
  have hrange : ∀ y : Int, 0 ≤ (FieldElement.new y).value ∧
      (FieldElement.new y).value < MODULUS := by
    intro y
    rw [fieldNew_val]
    exact ⟨Int.emod_nonneg y (ne_of_gt modulus_pos),
      Int.emod_lt_of_pos y modulus_pos⟩
  intro x
  refine ⟨⟨(hrange x).1, (hrange x).2, ?_⟩, fun a b =>
    ⟨⟨(hrange _).1, (hrange _).2⟩, ⟨(hrange _).1, (hrange _).2⟩,
     ⟨(hrange _).1, (hrange _).2⟩⟩⟩
  have hv : (FieldElement.new x).value = (FieldElement.new (x + MODULUS)).value := by
    rw [fieldNew_val, fieldNew_val, Int.add_emod_self]
  have e1 := fieldNew_val x
  have e2 := fieldNew_val (x + MODULUS)
  cases hnew : FieldElement.new x with
  | mk v =>
    cases hnew2 : FieldElement.new (x + MODULUS) with
    | mk w =>
      have : v = w := by
        have := hv
        rw [hnew, hnew2] at this
        exact this
      rw [this]

/-- C8.  Addition and multiplication of field elements are the integer
operations followed by reduction modulo `MODULUS`. -/
theorem C8_arith_mod : ∀ a b : FieldElement,
    (a.add b).value = (a.value + b.value) % MODULUS ∧
    (a.mul b).value = (a.value * b.value) % MODULUS := by
  intro a b
  exact ⟨fieldNew_val _, fieldNew_val _⟩

/-- Unfolding of the per-constraint boolean check into a proposition. -/
theorem constraintHolds_iff (hashFn : Int → Int → Int) (c : Constraint) :
    constraintHolds hashFn c = true ↔
      (match c.operation with
       | Operation.add =>
         weightedSum c.left + weightedSum c.right = weightedSum c.output
       | Operation.mul =>
         weightedSum c.left * weightedSum c.right = weightedSum c.output
       | Operation.hash =>
         hashFn (weightedSum c.left) (weightedSum c.right) = weightedSum c.output) := by
  unfold constraintHolds
  cases c.operation <;> simp

/-- The satisfaction loop returns `true` exactly when every constraint
passes its check. -/
theorem satLoop_true_iff (hashFn : Int → Int → Int) (cs : List Constraint) :
    satLoop hashFn cs = true ↔ ∀ c ∈ cs, constraintHolds hashFn c = true := by
  induction cs with
  | nil => simp [satLoop]
  | cons c rest ih =>
    by_cases h : constraintHolds hashFn c = true
    · simp [satLoop, h, ih]
    · simp [satLoop, h]

/-- A prefix of passing constraints does not affect the loop's result. -/
theorem satLoop_append_passing (hashFn : Int → Int → Int) (pre l : List Constraint)
    (hpre : ∀ c ∈ pre, constraintHolds hashFn c = true) :
    satLoop hashFn (pre ++ l) = satLoop hashFn l := by
  induction pre with
  | nil => rfl
  | cons c rest ih =>
    have hc : constraintHolds hashFn c = true := hpre c (List.mem_cons_self c rest)
    have := ih fun c' hc' => hpre c' (List.mem_cons_of_mem c hc')
    simp [satLoop, hc, this]

/-- C3.  `is_satisfied` computes the weighted sums `L`, `R`, `O` of each
constraint, dispatches on the operation tag (`Add ⇒ L+R=O`, `Mul ⇒ L*R=O`,
`Hash ⇒ hash_fn(L,R)=O`), returns `true` exactly when every constraint in
insertion order passes, and returns `false` at the first failing constraint
independently of everything after it. -/
theorem C3_is_satisfied_spec : ∀ (hashFn : Int → Int → Int) (r : R1CS),
    (r.is_satisfied hashFn = true ↔ ∀ c ∈ r.constraints,
      (match c.operation with
       | Operation.add =>
         weightedSum c.left + weightedSum c.right = weightedSum c.output
       | Operation.mul =>
         weightedSum c.left * weightedSum c.right = weightedSum c.output
       | Operation.hash =>
         hashFn (weightedSum c.left) (weightedSum c.right) = weightedSum c.output)) ∧
    ∀ pre c post post',
      (∀ c' ∈ pre, constraintHolds hashFn c' = true) →
      constraintHolds hashFn c = false →
      satLoop hashFn (pre ++ c :: post) = false ∧
      satLoop hashFn (pre ++ c :: post) = satLoop hashFn (pre ++ c :: post') := by
  intro hashFn r
  constructor
  · exact (satLoop_true_iff hashFn r.constraints).trans
      (forall_congr' fun c => imp_congr_right fun _ => constraintHolds_iff hashFn c)
  · intro pre c post post' hpre hc
    rw [satLoop_append_passing hashFn pre _ hpre, satLoop_append_passing hashFn pre _ hpre]
    simp [satLoop, hc]

theorem setValue_length (vs : List Variable) (i : Nat) (v : Int) :
    (setValue vs i v).length = vs.length := by
  unfold setValue
  split <;> simp

theorem setValue_get_ne (vs : List Variable) (i j : Nat) (v : Int) (hij : i ≠ j) :
    (setValue vs i v)[j]? = vs[j]? := by
  unfold setValue
  split
  · exact List.getElem?_set_ne hij
  · rfl

theorem setValue_get_eq (vs : List Variable) (i : Nat) (v : Int) (old : Variable)
    (h : vs[i]? = some old) :
    (setValue vs i v)[i]? = some ⟨old.index, v⟩ := by
  unfold setValue
  rw [h]
  have hi : i < vs.length := by
    by_contra hcon
    rw [List.getElem?_eq_none (Nat.le_of_not_lt hcon)] at h
    cases h
  simp [List.getElem?_set_self hi]

/-- A successful gate step never touches the circuit's input vector. -/
theorem stepGate_ok_inputs (hf : Option (Int → Int → Int)) (st : ProofState)
    (g : Gate) (st' : ProofState) (h : stepGate hf st g = .ok st') :
    st'.inputs = st.inputs := by
  cases g <;> simp only [stepGate] at h <;>
    (repeat' split at h) <;> (try cases h) <;> rfl

/-- A panicking gate step reports a state with the input vector intact. -/
theorem stepGate_err_inputs (hf : Option (Int → Int → Int)) (st : ProofState)
    (g : Gate) (k : PanicKind) (se : ProofState)
    (h : stepGate hf st g = .error (k, se)) :
    se.inputs = st.inputs := by
  cases g <;> simp only [stepGate] at h <;>
    (repeat' split at h) <;> (try cases h) <;> rfl

/-- A successful gate step preserves the length of the witness vector. -/
theorem stepGate_ok_length (hf : Option (Int → Int → Int)) (st : ProofState)
    (g : Gate) (st' : ProofState) (h : stepGate hf st g = .ok st') :
    st'.r1cs.variables'.length = st.r1cs.variables'.length := by
  cases g <;> simp only [stepGate] at h <;>
    (repeat' split at h) <;> (try cases h) <;>
    simp [setValue_length]

/-- A successful gate step leaves every witness slot the gate does not write
to unchanged. -/
theorem stepGate_ok_untouched (hf : Option (Int → Int → Int)) (st : ProofState)
    (g : Gate) (st' : ProofState) (h : stepGate hf st g = .ok st')
    (i : Nat) (hi : g.writeIdx ≠ some i) :
    st'.r1cs.variables'[i]? = st.r1cs.variables'[i]? := by
  cases g with
  | add a b out =>
    simp only [stepGate] at h
    (repeat' split at h) <;> cases h <;> rfl
  | mul a b out =>
    simp only [stepGate] at h
    (repeat' split at h) <;> cases h <;> rfl
  | hash a b out =>
    have hne : out ≠ i := fun hcon => hi (by simp [Gate.writeIdx, hcon])
    simp only [stepGate] at h
    (repeat' split at h) <;> (try cases h) <;>
      simp [setValue_get_ne _ _ _ _ hne]

/-- A successful gate step only appends constraints. -/
theorem stepGate_ok_constraints (hf : Option (Int → Int → Int)) (st : ProofState)
    (g : Gate) (st' : ProofState) (h : stepGate hf st g = .ok st') :
    ∃ tail, st'.r1cs.constraints = st.r1cs.constraints ++ tail := by
  cases g <;> simp only [stepGate] at h <;>
    (repeat' split at h) <;> (try cases h) <;> exact ⟨_, rfl⟩

/-- Inversion of a successful Add step: the indices were valid, the witness
is untouched, and exactly the one unit-coefficient constraint is appended. -/
theorem stepGate_add_ok (hf : Option (Int → Int → Int)) (st st' : ProofState)
    (a b out : Nat) (h : stepGate hf st (.add a b out) = .ok st') :
    ∃ va vb vo, st.r1cs.variables'[a]? = some va ∧
      st.r1cs.variables'[b]? = some vb ∧ st.r1cs.variables'[out]? = some vo ∧
      st' = ⟨st.inputs, ⟨st.r1cs.variables', st.r1cs.constraints ++
        [⟨[(va, coeffOne)], [(vb, coeffOne)], [(vo, coeffOne)], Operation.add⟩]⟩⟩ := by
  simp only [stepGate] at h
  (repeat' split at h) <;> cases h
  exact ⟨_, _, _, by assumption, by assumption, by assumption, rfl⟩

/-- Inversion of a successful Mul step. -/
theorem stepGate_mul_ok (hf : Option (Int → Int → Int)) (st st' : ProofState)
    (a b out : Nat) (h : stepGate hf st (.mul a b out) = .ok st') :
    ∃ va vb vo, st.r1cs.variables'[a]? = some va ∧
      st.r1cs.variables'[b]? = some vb ∧ st.r1cs.variables'[out]? = some vo ∧
      st' = ⟨st.inputs, ⟨st.r1cs.variables', st.r1cs.constraints ++
        [⟨[(va, coeffOne)], [(vb, coeffOne)], [(vo, coeffOne)], Operation.mul⟩]⟩⟩ := by
  simp only [stepGate] at h
  (repeat' split at h) <;> cases h
  exact ⟨_, _, _, by assumption, by assumption, by assumption, rfl⟩

theorem setValue_setValue (vs : List Variable) (i : Nat) (v : Int) :
    setValue (setValue vs i v) i v = setValue vs i v := by
  rcases hx : vs[i]? with _ | old
  · have hinner : setValue vs i v = vs := by rw [setValue, hx]
    rw [hinner]
    exact hinner
  · have hi : i < vs.length := by
      by_contra hcon
      rw [List.getElem?_eq_none (Nat.le_of_not_lt hcon)] at hx
      cases hx
    have hinner : setValue vs i v = vs.set i ⟨old.index, v⟩ := by rw [setValue, hx]
    have hget : (vs.set i ⟨old.index, v⟩)[i]? = some ⟨old.index, v⟩ :=
      List.getElem?_set_self hi
    calc setValue (setValue vs i v) i v
        = setValue (vs.set i ⟨old.index, v⟩) i v := by rw [hinner]
      _ = (vs.set i ⟨old.index, v⟩).set i ⟨old.index, v⟩ := by rw [setValue, hget]
      _ = vs.set i ⟨old.index, v⟩ := List.set_set ⟨old.index, v⟩ ⟨old.index, v⟩ vs i
      _ = setValue vs i v := hinner.symm

/-- Forward computation of a Hash step under validity hypotheses. -/
theorem stepGate_hash_eq (f : Int → Int → Int) (st : ProofState)
    (a b out : Nat) (ia ib : FieldElement) (va vb vo : Variable)
    (hia : st.inputs[a]? = some ia) (hib : st.inputs[b]? = some ib)
    (hlen : out < st.r1cs.variables'.length)
    (hva : (setValue st.r1cs.variables' out (f ia.value ib.value))[a]? = some va)
    (hvb : (setValue st.r1cs.variables' out (f ia.value ib.value))[b]? = some vb)
    (hvo : (setValue st.r1cs.variables' out (f ia.value ib.value))[out]? = some vo) :
    stepGate (some f) st (.hash a b out) = .ok ⟨st.inputs,
      ⟨setValue st.r1cs.variables' out (f ia.value ib.value),
       st.r1cs.constraints ++
         [⟨[(va, coeffOne)], [(vb, coeffOne)], [(vo, coeffOne)], Operation.hash⟩]⟩⟩ := by
  have hlen1 : out < (setValue st.r1cs.variables' out (f ia.value ib.value)).length := by
    rw [setValue_length]; exact hlen
  simp only [stepGate, hia, hib, if_pos hlen, if_pos hlen1, setValue_setValue,
    hva, hvb, hvo]

/-- Inversion of a successful Hash step: the capability exists, both inputs
were read from the circuit's input vector, the `out` slot exists, its value
is overwritten with the computed hash before the constraint is emitted, and
the emitted constraint embeds the post-write variables. -/
theorem stepGate_hash_ok (hf : Option (Int → Int → Int)) (st st' : ProofState)
    (a b out : Nat) (h : stepGate hf st (.hash a b out) = .ok st') :
    ∃ f ia ib, hf = some f ∧ st.inputs[a]? = some ia ∧ st.inputs[b]? = some ib ∧
      st'.inputs = st.inputs ∧
      st'.r1cs.variables' = setValue st.r1cs.variables' out (f ia.value ib.value) ∧
      ∃ va vb vo, st'.r1cs.variables'[a]? = some va ∧
        st'.r1cs.variables'[b]? = some vb ∧
        st'.r1cs.variables'[out]? = some vo ∧
        vo.value = f ia.value ib.value ∧
        st'.r1cs.constraints = st.r1cs.constraints ++
          [⟨[(va, coeffOne)], [(vb, coeffOne)], [(vo, coeffOne)], Operation.hash⟩] := by
  obtain ⟨ia, hia⟩ : ∃ ia, st.inputs[a]? = some ia := by
    rcases hx : st.inputs[a]? with _ | ia
    · simp [stepGate, hx] at h
    · exact ⟨ia, rfl⟩
  obtain ⟨ib, hib⟩ : ∃ ib, st.inputs[b]? = some ib := by
    rcases hx : st.inputs[b]? with _ | ib
    · simp [stepGate, hia, hx] at h
    · exact ⟨ib, rfl⟩
  obtain ⟨f, rfl⟩ : ∃ f, hf = some f := by
    cases hf with
    | none => simp [stepGate, hia, hib] at h
    | some f => exact ⟨f, rfl⟩
  have hlen : out < st.r1cs.variables'.length := by
    by_contra hout
    simp [stepGate, hia, hib, hout] at h
  have hlen1 : out < (setValue st.r1cs.variables' out (f ia.value ib.value)).length := by
    rw [setValue_length]; exact hlen
  obtain ⟨old, hold⟩ : ∃ old, st.r1cs.variables'[out]? = some old :=
    ⟨_, List.getElem?_eq_getElem hlen⟩
  obtain ⟨va, hva⟩ :
      ∃ va, (setValue st.r1cs.variables' out (f ia.value ib.value))[a]? = some va := by
    rcases hx : (setValue st.r1cs.variables' out (f ia.value ib.value))[a]? with _ | va
    · exfalso
      simp [stepGate, hia, hib, if_pos hlen, if_pos hlen1, setValue_setValue, hx] at h
    · exact ⟨va, rfl⟩
  obtain ⟨vb, hvb⟩ :
      ∃ vb, (setValue st.r1cs.variables' out (f ia.value ib.value))[b]? = some vb := by
    rcases hx : (setValue st.r1cs.variables' out (f ia.value ib.value))[b]? with _ | vb
    · exfalso
      simp [stepGate, hia, hib, if_pos hlen, if_pos hlen1, setValue_setValue,
        hva, hx] at h
    · exact ⟨vb, rfl⟩
  obtain ⟨vo, hvo⟩ :
      ∃ vo, (setValue st.r1cs.variables' out (f ia.value ib.value))[out]? = some vo :=
    ⟨_, List.getElem?_eq_getElem hlen1⟩
  rw [stepGate_hash_eq f st a b out ia ib va vb vo hia hib hlen hva hvb hvo] at h
  cases h
  have hvoval : vo = ⟨old.index, f ia.value ib.value⟩ := by
    have := setValue_get_eq st.r1cs.variables' out (f ia.value ib.value) old hold
    rw [this] at hvo
    exact (Option.some.inj hvo).symm
  exact ⟨f, ia, ib, rfl, hia, hib, rfl, rfl,
    va, vb, vo, hva, hvb, hvo, by rw [hvoval], rfl⟩

/-- The gate loop never touches the circuit's input vector (success case). -/
theorem runGates_ok_inputs (hf : Option (Int → Int → Int)) :
    ∀ (gs : List Gate) (st st' : ProofState),
      runGates hf st gs = .ok st' → st'.inputs = st.inputs := by
  intro gs
  induction gs with
  | nil =>
    intro st st' h
    cases h
    rfl
  | cons g rest ih =>
    intro st st' h
    simp only [runGates] at h
    cases hs : stepGate hf st g with
    | error e => rw [hs] at h; cases h
    | ok st1 =>
      rw [hs] at h
      exact (ih st1 st' h).trans (stepGate_ok_inputs hf st g st1 hs)

/-- The gate loop never touches the circuit's input vector (panic case). -/
theorem runGates_err_inputs (hf : Option (Int → Int → Int)) :
    ∀ (gs : List Gate) (st : ProofState) (k : PanicKind) (se : ProofState),
      runGates hf st gs = .error (k, se) → se.inputs = st.inputs := by
  intro gs
  induction gs with
  | nil =>
    intro st k se h
    cases h
  | cons g rest ih =>
    intro st k se h
    simp only [runGates] at h
    cases hs : stepGate hf st g with
    | error e =>
      rw [hs] at h
      cases h
      exact stepGate_err_inputs hf st g k se hs
    | ok st1 =>
      rw [hs] at h
      exact (ih st1 k se h).trans (stepGate_ok_inputs hf st g st1 hs)

/-- The gate loop preserves the witness vector's length. -/
theorem runGates_ok_length (hf : Option (Int → Int → Int)) :
    ∀ (gs : List Gate) (st st' : ProofState),
      runGates hf st gs = .ok st' →
      st'.r1cs.variables'.length = st.r1cs.variables'.length := by
  intro gs
  induction gs with
  | nil =>
    intro st st' h
    cases h
    rfl
  | cons g rest ih =>
    intro st st' h
    simp only [runGates] at h
    cases hs : stepGate hf st g with
    | error e => rw [hs] at h; cases h
    | ok st1 =>
      rw [hs] at h
      exact (ih st1 st' h).trans (stepGate_ok_length hf st g st1 hs)

/-- A witness slot written by no gate of the list is unchanged by the loop. -/
theorem runGates_untouched (hf : Option (Int → Int → Int)) :
    ∀ (gs : List Gate) (st st' : ProofState) (i : Nat),
      runGates hf st gs = .ok st' →
      (∀ g ∈ gs, ∀ o, g.writeIdx = some o → o ≠ i) →
      st'.r1cs.variables'[i]? = st.r1cs.variables'[i]? := by
  intro gs
  induction gs with
  | nil =>
    intro st st' i h _
    cases h
    rfl
  | cons g rest ih =>
    intro st st' i h hw
    simp only [runGates] at h
    cases hs : stepGate hf st g with
    | error e => rw [hs] at h; cases h
    | ok st1 =>
      rw [hs] at h
      have hg : g.writeIdx ≠ some i := fun hcon =>
        hw g (List.mem_cons_self g rest) i hcon rfl
      have h1 := stepGate_ok_untouched hf st g st1 hs i hg
      have h2 := ih st1 st' i h fun g' hg' => hw g' (List.mem_cons_of_mem g hg')
      exact h2.trans h1

/-- Splitting the gate loop at a list append. -/
theorem runGates_append (hf : Option (Int → Int → Int)) :
    ∀ (l1 l2 : List Gate) (st : ProofState),
      runGates hf st (l1 ++ l2) =
        match runGates hf st l1 with
        | .ok s => runGates hf s l2
        | .error e => .error e := by
  intro l1
  induction l1 with
  | nil => intro l2 st; rfl
  | cons g rest ih =>
    intro l2 st
    simp only [List.cons_append, runGates]
    cases hs : stepGate hf st g with
    | error e => rfl
    | ok st1 => exact ih l2 st1

/-- Constraints already emitted stay in the system for the rest of the
loop. -/
theorem runGates_mem_constraints (hf : Option (Int → Int → Int)) :
    ∀ (gs : List Gate) (st st' : ProofState) (cons : Constraint),
      runGates hf st gs = .ok st' →
      cons ∈ st.r1cs.constraints → cons ∈ st'.r1cs.constraints := by
  intro gs
  induction gs with
  | nil =>
    intro st st' cons h hm
    cases h
    exact hm
  | cons g rest ih =>
    intro st st' cons h hm
    simp only [runGates] at h
    cases hs : stepGate hf st g with
    | error e => rw [hs] at h; cases h
    | ok st1 =>
      rw [hs] at h
      obtain ⟨tail, htail⟩ := stepGate_ok_constraints hf st g st1 hs
      exact ih st1 st' cons h (htail ▸ List.mem_append_of_mem_left tail hm)

/-- A successful `generate_proof` run decomposes into a successful gate loop
followed by a successful validation loop. -/
theorem generate_proof_ok (c : Circuit) (st : ProofState) (v : Bool)
    (h : c.generate_proof = .ok (st, v)) :
    runGates c.hash_function (initState c) c.gates = .ok st ∧
      satLoopChecked c.hash_function st.r1cs.constraints = .ok v := by
  unfold Circuit.generate_proof at h
  cases hr : runGates c.hash_function (initState c) c.gates with
  | error e => rw [hr] at h; cases h
  | ok st0 =>
    rw [hr] at h
    dsimp only at h
    cases hv : satLoopChecked c.hash_function st0.r1cs.constraints with
    | error k => rw [hv] at h; cases h
    | ok v0 =>
      rw [hv] at h
      cases h
      exact ⟨rfl, hv⟩

/-- With a present capability, the checked validation loop computes exactly
`is_satisfied`'s boolean. -/
theorem satLoopChecked_some (f : Int → Int → Int) :
    ∀ cs : List Constraint, satLoopChecked (some f) cs = .ok (satLoop f cs) := by
  intro cs
  induction cs with
  | nil => rfl
  | cons c rest ih =>
    cases hop : c.operation with
    | add =>
      have hch : constraintHolds f c =
          (weightedSum c.left + weightedSum c.right == weightedSum c.output) := by
        simp [constraintHolds, hop]
      simp only [satLoopChecked, satLoop, hop, hch]
      by_cases hb : (weightedSum c.left + weightedSum c.right == weightedSum c.output) = true
      · simp [hb, ih]
      · simp [hb, Bool.of_not_eq_true hb]
    | mul =>
      have hch : constraintHolds f c =
          (weightedSum c.left * weightedSum c.right == weightedSum c.output) := by
        simp [constraintHolds, hop]
      simp only [satLoopChecked, satLoop, hop, hch]
      by_cases hb : (weightedSum c.left * weightedSum c.right == weightedSum c.output) = true
      · simp [hb, ih]
      · simp [hb, Bool.of_not_eq_true hb]
    | hash =>
      have hch : constraintHolds f c =
          (f (weightedSum c.left) (weightedSum c.right) == weightedSum c.output) := by
        simp [constraintHolds, hop]
      simp only [satLoopChecked, satLoop, hop, hch]
      by_cases hb : (f (weightedSum c.left) (weightedSum c.right) == weightedSum c.output) = true
      · simp [hb, ih]
      · simp [hb, Bool.of_not_eq_true hb]

theorem coeffOne_eq_one : coeffOne = 1 := by decide

theorem mkVariables_length (inputs : List FieldElement) :
    (mkVariables inputs).length = inputs.length := by
  simp [mkVariables]

theorem mkVariables_get (inputs : List FieldElement) (i : Nat) :
    (mkVariables inputs)[i]? =
      (inputs[i]?).map fun x => (⟨i, x.value⟩ : Variable) := by
  simp only [mkVariables, List.getElem?_map, List.getElem?_enum]
  cases inputs[i]? <;> rfl

theorem mkVariables_index (inputs : List FieldElement) (k : Nat) (v : Variable)
    (h : (mkVariables inputs)[k]? = some v) : v.index = k := by
  rw [mkVariables_get] at h
  cases hx : inputs[k]? with
  | none => rw [hx] at h; cases h
  | some x =>
    rw [hx] at h
    cases h
    rfl

theorem weightedSum_single (x : Variable) :
    weightedSum [(x, coeffOne)] = x.value := by
  simp [weightedSum, coeffOne_eq_one]

/-- C9 (confirmed).  Compiling an Add or Mul gate with valid indices emits
exactly one constraint of shape `left=[(var[a],1)]`, `right=[(var[b],1)]`,
`output=[(var[out],1)]` with the matching tag, and leaves the whole witness
vector (and the circuit inputs) unchanged: these gates are check-only. -/
theorem C9_addmul_check_only :
    ∀ (hf : Option (Int → Int → Int)) (st : ProofState) (a b out : Nat)
      (va vb vo : Variable),
      st.r1cs.variables'[a]? = some va →
      st.r1cs.variables'[b]? = some vb →
      st.r1cs.variables'[out]? = some vo →
      stepGate hf st (.add a b out) = .ok ⟨st.inputs, ⟨st.r1cs.variables',
        st.r1cs.constraints ++
          [⟨[(va, 1)], [(vb, 1)], [(vo, 1)], Operation.add⟩]⟩⟩ ∧
      stepGate hf st (.mul a b out) = .ok ⟨st.inputs, ⟨st.r1cs.variables',
        st.r1cs.constraints ++
          [⟨[(va, 1)], [(vb, 1)], [(vo, 1)], Operation.mul⟩]⟩⟩ := by
  intro hf st a b out va vb vo ha hb ho
  constructor <;> simp [stepGate, ha, hb, ho, coeffOne_eq_one]

/-- Witness for C9 on the `main.rs` addition circuit. -/
theorem C9_witness :
    stepGate none (initState addDemo) (Gate.add 0 1 2) = .ok ⟨addDemo.inputs,
      ⟨(initState addDemo).r1cs.variables',
       [⟨[(⟨0, 10⟩, 1)], [(⟨1, 20⟩, 1)], [(⟨2, 30⟩, 1)], Operation.add⟩]⟩⟩ ∧
    stepGate none (initState addDemo) (Gate.mul 0 1 2) = .ok ⟨addDemo.inputs,
      ⟨(initState addDemo).r1cs.variables',
       [⟨[(⟨0, 10⟩, 1)], [(⟨1, 20⟩, 1)], [(⟨2, 30⟩, 1)], Operation.mul⟩]⟩⟩ :=
  C9_addmul_check_only none (initState addDemo) 0 1 2 ⟨0, 10⟩ ⟨1, 20⟩ ⟨2, 30⟩
    (by decide) (by decide) (by decide)

/-- C10 (confirmed).  `generate_proof` never modifies the circuit's own
input vector: in the state-passing embedding, both on success and on panic
the `inputs` component of the final memory is exactly `c.inputs`, so
`get_input` answers are unchanged and a second call starts from identical
input values. -/
theorem C10_inputs_frame : ∀ c : Circuit,
    (∀ st v, c.generate_proof = .ok (st, v) →
      st.inputs = c.inputs ∧ ∀ i, c.get_input i = st.inputs[i]?) ∧
    (∀ k se, c.generate_proof = .error (k, se) → se.inputs = c.inputs) := by
  intro c
  constructor
  · intro st v h
    obtain ⟨hr, _⟩ := generate_proof_ok c st v h
    have h1 : st.inputs = c.inputs := runGates_ok_inputs _ _ _ _ hr
    refine ⟨h1, fun i => ?_⟩
    show c.inputs[i]? = st.inputs[i]?
    rw [h1]
  · intro k se h
    unfold Circuit.generate_proof at h
    cases hr : runGates c.hash_function (initState c) c.gates with
    | error e =>
      rw [hr] at h
      cases h
      exact runGates_err_inputs _ _ _ _ _ hr
    | ok st0 =>
      rw [hr] at h
      dsimp only at h
      cases hv : satLoopChecked c.hash_function st0.r1cs.constraints with
      | error k0 =>
        rw [hv] at h
        cases h
        exact runGates_ok_inputs _ _ _ _ hr
      | ok v0 => rw [hv] at h; cases h

/-- Witness for C10 on the `main.rs` addition circuit. -/
theorem C10_witness :
    (⟨addDemo.inputs, ⟨[⟨0, 10⟩, ⟨1, 20⟩, ⟨2, 30⟩],
       [⟨[(⟨0, 10⟩, 1)], [(⟨1, 20⟩, 1)], [(⟨2, 30⟩, 1)], Operation.add⟩]⟩⟩ :
         ProofState).inputs = addDemo.inputs ∧
    addDemo.get_input 1 =
      (⟨addDemo.inputs, ⟨[⟨0, 10⟩, ⟨1, 20⟩, ⟨2, 30⟩],
         [⟨[(⟨0, 10⟩, 1)], [(⟨1, 20⟩, 1)], [(⟨2, 30⟩, 1)], Operation.add⟩]⟩⟩ :
           ProofState).inputs[1]? := by
  have h := (C10_inputs_frame addDemo).1
    ⟨addDemo.inputs, ⟨[⟨0, 10⟩, ⟨1, 20⟩, ⟨2, 30⟩],
      [⟨[(⟨0, 10⟩, 1)], [(⟨1, 20⟩, 1)], [(⟨2, 30⟩, 1)], Operation.add⟩]⟩⟩
    true (by decide)
  exact ⟨h.1, h.2 1⟩

/-- A gate whose indices are all in range steps without panicking, given a
present capability. -/
theorem stepGate_progress (f : Int → Int → Int) (st : ProofState) (g : Gate)
    (hinp : st.inputs.length = st.r1cs.variables'.length)
    (hv : ∀ i ∈ g.refs, i < st.r1cs.variables'.length) :
    ∃ st', stepGate (some f) st g = .ok st' := by
  cases g with
  | add a b out =>
    obtain ⟨va, hva⟩ : ∃ va, st.r1cs.variables'[a]? = some va :=
      ⟨_, List.getElem?_eq_getElem (hv a (by simp [Gate.refs]))⟩
    obtain ⟨vb, hvb⟩ : ∃ vb, st.r1cs.variables'[b]? = some vb :=
      ⟨_, List.getElem?_eq_getElem (hv b (by simp [Gate.refs]))⟩
    obtain ⟨vo, hvo⟩ : ∃ vo, st.r1cs.variables'[out]? = some vo :=
      ⟨_, List.getElem?_eq_getElem (hv out (by simp [Gate.refs]))⟩
    exact ⟨⟨st.inputs, ⟨st.r1cs.variables', st.r1cs.constraints ++
      [⟨[(va, coeffOne)], [(vb, coeffOne)], [(vo, coeffOne)], Operation.add⟩]⟩⟩,
      by simp [stepGate, hva, hvb, hvo]⟩
  | mul a b out =>
    obtain ⟨va, hva⟩ : ∃ va, st.r1cs.variables'[a]? = some va :=
      ⟨_, List.getElem?_eq_getElem (hv a (by simp [Gate.refs]))⟩
    obtain ⟨vb, hvb⟩ : ∃ vb, st.r1cs.variables'[b]? = some vb :=
      ⟨_, List.getElem?_eq_getElem (hv b (by simp [Gate.refs]))⟩
    obtain ⟨vo, hvo⟩ : ∃ vo, st.r1cs.variables'[out]? = some vo :=
      ⟨_, List.getElem?_eq_getElem (hv out (by simp [Gate.refs]))⟩
    exact ⟨⟨st.inputs, ⟨st.r1cs.variables', st.r1cs.constraints ++
      [⟨[(va, coeffOne)], [(vb, coeffOne)], [(vo, coeffOne)], Operation.mul⟩]⟩⟩,
      by simp [stepGate, hva, hvb, hvo]⟩
  | hash a b out =>
    have hlen : out < st.r1cs.variables'.length := hv out (by simp [Gate.refs])
    have hainp : a < st.inputs.length := by
      rw [hinp]; exact hv a (by simp [Gate.refs])
    have hbinp : b < st.inputs.length := by
      rw [hinp]; exact hv b (by simp [Gate.refs])
    obtain ⟨ia, hia⟩ : ∃ ia, st.inputs[a]? = some ia :=
      ⟨_, List.getElem?_eq_getElem hainp⟩
    obtain ⟨ib, hib⟩ : ∃ ib, st.inputs[b]? = some ib :=
      ⟨_, List.getElem?_eq_getElem hbinp⟩
    obtain ⟨va, hva⟩ :
        ∃ va, (setValue st.r1cs.variables' out (f ia.value ib.value))[a]? = some va :=
      ⟨_, List.getElem?_eq_getElem
        (by rw [setValue_length]; exact hv a (by simp [Gate.refs]))⟩
    obtain ⟨vb, hvb⟩ :
        ∃ vb, (setValue st.r1cs.variables' out (f ia.value ib.value))[b]? = some vb :=
      ⟨_, List.getElem?_eq_getElem
        (by rw [setValue_length]; exact hv b (by simp [Gate.refs]))⟩
    obtain ⟨vo, hvo⟩ :
        ∃ vo, (setValue st.r1cs.variables' out (f ia.value ib.value))[out]? = some vo :=
      ⟨_, List.getElem?_eq_getElem (by rw [setValue_length]; exact hlen)⟩
    exact ⟨_, stepGate_hash_eq f st a b out ia ib va vb vo hia hib hlen hva hvb hvo⟩

/-- A gate list whose indices are all in range runs without panicking. -/
theorem runGates_progress (f : Int → Int → Int) :
    ∀ (gs : List Gate) (st : ProofState),
      st.inputs.length = st.r1cs.variables'.length →
      (∀ g ∈ gs, ∀ i ∈ Gate.refs g, i < st.r1cs.variables'.length) →
      ∃ st', runGates (some f) st gs = .ok st' ∧ st'.inputs = st.inputs ∧
        st'.r1cs.variables'.length = st.r1cs.variables'.length := by
  intro gs
  induction gs with
  | nil => exact fun st _ _ => ⟨st, rfl, rfl, rfl⟩
  | cons g rest ih =>
    intro st hinp hv
    obtain ⟨st1, hs⟩ := stepGate_progress f st g hinp
      (hv g (List.mem_cons_self g rest))
    have hi1 : st1.inputs = st.inputs := stepGate_ok_inputs _ _ _ _ hs
    have hl1 : st1.r1cs.variables'.length = st.r1cs.variables'.length :=
      stepGate_ok_length _ _ _ _ hs
    obtain ⟨st', hrun, hi, hl⟩ := ih st1 (by rw [hi1, hl1]; exact hinp)
      (by rw [hl1]; exact fun g' hg' => hv g' (List.mem_cons_of_mem g hg'))
    refine ⟨st', ?_, hi.trans hi1, hl.trans hl1⟩
    simp only [runGates, hs]
    exact hrun

/-- C4 (amended).  A Hash gate whose `out` wire was never registered is hit
only after a prefix of in-range gates has compiled; the pass then stops with
the raw `index out of bounds` panic (`PanicKind.indexOutOfBounds`, carrying
no gate or index information), and the state reported at the panic is
exactly the pre-gate state: the offending gate performed no witness
mutation, because the guarded assignment is skipped and the unconditional
assignment faults before writing. -/
theorem C4_oob_panic :
    ∀ (f : Int → Int → Int) (inputs : List FieldElement) (l1 : List Gate)
      (a b out : Nat) (l2 : List Gate) (outs : List FieldElement),
      (∀ g ∈ l1, ∀ i ∈ Gate.refs g, i < inputs.length) →
      a < inputs.length → b < inputs.length → inputs.length ≤ out →
      ∃ st1,
        runGates (some f)
          (initState ⟨some f, inputs, l1 ++ Gate.hash a b out :: l2, outs⟩) l1 =
            .ok st1 ∧
        st1.r1cs.variables'.length = inputs.length ∧
        Circuit.generate_proof ⟨some f, inputs, l1 ++ Gate.hash a b out :: l2, outs⟩ =
          .error (.indexOutOfBounds, st1) := by
  intro f inputs l1 a b out l2 outs hval ha hb hout
  have hlen0 : (initState ⟨some f, inputs, l1 ++ Gate.hash a b out :: l2,
      outs⟩).r1cs.variables'.length = inputs.length := mkVariables_length inputs
  obtain ⟨st1, hrun, hinp1, hlen1⟩ := runGates_progress f l1
    (initState ⟨some f, inputs, l1 ++ Gate.hash a b out :: l2, outs⟩)
    (by rw [hlen0]; rfl)
    (by rw [hlen0]; exact hval)
  have hinp1' : st1.inputs = inputs := hinp1
  have hlen1' : st1.r1cs.variables'.length = inputs.length := by
    rw [hlen1]; exact hlen0
  have hia := List.getElem?_eq_getElem (show a < st1.inputs.length by
    rw [hinp1']; exact ha)
  have hib := List.getElem?_eq_getElem (show b < st1.inputs.length by
    rw [hinp1']; exact hb)
  have hnl : ¬ out < st1.r1cs.variables'.length := by
    rw [hlen1']; omega
  have hstep : stepGate (some f) st1 (.hash a b out) =
      .error (.indexOutOfBounds, st1) := by
    simp [stepGate, hia, hib, hnl]
  refine ⟨st1, hrun, hlen1', ?_⟩
  unfold Circuit.generate_proof
  rw [show (⟨some f, inputs, l1 ++ Gate.hash a b out :: l2, outs⟩ :
      Circuit).gates = l1 ++ Gate.hash a b out :: l2 from rfl]
  rw [runGates_append, hrun]
  simp only [runGates, hstep]

/-- Counterexample for C4 as stated: on the concrete circuit whose single
Hash gate targets the unregistered wire 5, `generate_proof` does not return
a structured error naming the gate and index; it stops with the bare
out-of-bounds panic, whose payload is just the untouched pre-gate state. -/
theorem C4_counterexample :
    cexOOB.generate_proof = .error (.indexOutOfBounds, initState cexOOB) := by
  decide

/-- Witness for C4 (amended) on the concrete out-of-range circuit. -/
theorem C4_witness :
    Circuit.generate_proof
      ⟨some hfAddOne, [FieldElement.from_i32 1, FieldElement.from_i32 2],
       [] ++ Gate.hash 0 1 5 :: [], []⟩ =
    .error (.indexOutOfBounds,
      initState ⟨some hfAddOne, [FieldElement.from_i32 1, FieldElement.from_i32 2],
        [] ++ Gate.hash 0 1 5 :: [], []⟩) := by
  obtain ⟨st1, h1, _, h3⟩ := C4_oob_panic hfAddOne
    [FieldElement.from_i32 1, FieldElement.from_i32 2] [] 0 1 5 [] []
    (by intro g hg; cases hg) (by decide) (by decide) (by decide)
  cases h1
  exact h3

/-- If every gate in the list that writes `out` is the fixed gate
`Hash(a, b, out)`, the value stored at `out` — once equal to the hash of the
circuit's input values at `a` and `b` — survives the rest of the loop. -/
theorem runGates_out_stable (f : Int → Int → Int) (a b out : Nat)
    (ia ib : FieldElement) :
    ∀ (gs : List Gate) (st st' : ProofState),
      runGates (some f) st gs = .ok st' →
      st.inputs[a]? = some ia → st.inputs[b]? = some ib →
      (∀ g ∈ gs, g.writeIdx = some out → g = Gate.hash a b out) →
      (st.r1cs.variables'[out]?).map Variable.value = some (f ia.value ib.value) →
      (st'.r1cs.variables'[out]?).map Variable.value = some (f ia.value ib.value) := by
  intro gs
  induction gs with
  | nil =>
    intro st st' h _ _ _ hval
    cases h
    exact hval
  | cons g rest ih =>
    intro st st' h hia hib hw hval
    simp only [runGates] at h
    cases hs : stepGate (some f) st g with
    | error e => rw [hs] at h; cases h
    | ok st1 =>
      rw [hs] at h
      have hi1 : st1.inputs = st.inputs := stepGate_ok_inputs _ _ _ _ hs
      have hw1 : ∀ g' ∈ rest, g'.writeIdx = some out → g' = Gate.hash a b out :=
        fun g' hg' => hw g' (List.mem_cons_of_mem g hg')
      by_cases hwg : g.writeIdx = some out
      · have hg : g = Gate.hash a b out := hw g (List.mem_cons_self g rest) hwg
        subst hg
        obtain ⟨f', ia', ib', hf', hia', hib', _, hvars, _⟩ :=
          stepGate_hash_ok _ st st1 a b out hs
        cases Option.some.inj hf'
        rw [hia] at hia'
        cases Option.some.inj hia'
        rw [hib] at hib'
        cases Option.some.inj hib'
        have hlen : out < st.r1cs.variables'.length := by
          by_contra hcon
          rw [List.getElem?_eq_none (Nat.le_of_not_lt hcon)] at hval
          cases hval
        obtain ⟨old, hold⟩ : ∃ old, st.r1cs.variables'[out]? = some old :=
          ⟨_, List.getElem?_eq_getElem hlen⟩
        have hnew : st1.r1cs.variables'[out]? = some ⟨old.index, f ia.value ib.value⟩ := by
          rw [hvars]
          exact setValue_get_eq _ _ _ _ hold
        exact ih st1 st' h (by rw [hi1]; exact hia) (by rw [hi1]; exact hib) hw1
          (by rw [hnew]; rfl)
      · have huntouched := stepGate_ok_untouched _ _ _ _ hs out hwg
        exact ih st1 st' h (by rw [hi1]; exact hia) (by rw [hi1]; exact hib) hw1
          (by rw [huntouched]; exact hval)

/-- C2 (amended).  For a circuit with a configured capability containing
`Hash(a, b, out)`, a successful `generate_proof` computes the hash of the
circuit's original input values at `a` and `b` and stores it at witness
index `out`; provided no Hash gate of the circuit writes to `a` or `b`
(which forces `out ∉ {a, b}`) and `Hash(a, b, out)` is the only gate
writing `out`, the final witness at `out` equals the hash of the final
witness values at `a` and `b`, and the constraint emitted for the gate is a
satisfied Hash constraint of the final system. -/
theorem C2_hash_gate_correct :
    ∀ (f : Int → Int → Int) (inputs : List FieldElement) (gates : List Gate)
      (outs : List FieldElement) (a b out : Nat) (st : ProofState) (v : Bool)
      (ia ib : FieldElement),
      Circuit.generate_proof ⟨some f, inputs, gates, outs⟩ = .ok (st, v) →
      Gate.hash a b out ∈ gates →
      (∀ g ∈ gates, ∀ o, g.writeIdx = some o → o ≠ a ∧ o ≠ b) →
      (∀ g ∈ gates, g.writeIdx = some out → g = Gate.hash a b out) →
      inputs[a]? = some ia → inputs[b]? = some ib →
      (st.r1cs.variables'[out]?).map Variable.value = some (f ia.value ib.value) ∧
      (st.r1cs.variables'[a]?).map Variable.value = some ia.value ∧
      (st.r1cs.variables'[b]?).map Variable.value = some ib.value ∧
      ∃ cons ∈ st.r1cs.constraints, cons.operation = Operation.hash ∧
        constraintHolds f cons = true := by
  intro f inputs gates outs a b out st v ia ib hok hmem hnoab huniq hia hib
  obtain ⟨hrun, _⟩ := generate_proof_ok _ st v hok
  obtain ⟨l1, l2, rfl⟩ := List.append_of_mem hmem
  rw [runGates_append] at hrun
  cases hr1 : runGates (some f)
      (initState ⟨some f, inputs, l1 ++ Gate.hash a b out :: l2, outs⟩) l1 with
  | error e => rw [hr1] at hrun; cases hrun
  | ok s1 =>
    rw [hr1] at hrun
    dsimp only at hrun
    simp only [runGates] at hrun
    cases hs : stepGate (some f) s1 (Gate.hash a b out) with
    | error e => rw [hs] at hrun; cases hrun
    | ok s2 =>
      rw [hs] at hrun
      dsimp only at hrun
      have hinp1 : s1.inputs = inputs := runGates_ok_inputs _ _ _ _ hr1
      have hia1 : s1.inputs[a]? = some ia := by rw [hinp1]; exact hia
      have hib1 : s1.inputs[b]? = some ib := by rw [hinp1]; exact hib
      obtain ⟨f', ia', ib', hf', hia', hib', hinp2, hvars2, va, vb, vo,
        hva, hvb, hvo, hvoval, hcons2⟩ := stepGate_hash_ok _ s1 s2 a b out hs
      cases Option.some.inj hf'
      rw [hia1] at hia'
      cases Option.some.inj hia'
      rw [hib1] at hib'
      cases Option.some.inj hib'
      have houta : out ≠ a :=
        (hnoab (Gate.hash a b out) hmem out rfl).1
      have houtb : out ≠ b :=
        (hnoab (Gate.hash a b out) hmem out rfl).2
      -- `a` and `b` are never written, so they keep their initial values.
      have hnw_a : ∀ g ∈ l1 ++ Gate.hash a b out :: l2, ∀ o,
          g.writeIdx = some o → o ≠ a := fun g hg o hgo => (hnoab g hg o hgo).1
      have hnw_b : ∀ g ∈ l1 ++ Gate.hash a b out :: l2, ∀ o,
          g.writeIdx = some o → o ≠ b := fun g hg o hgo => (hnoab g hg o hgo).2
      have hmem_l1 : ∀ g ∈ l1, g ∈ l1 ++ Gate.hash a b out :: l2 :=
        fun g hg => List.mem_append_of_mem_left _ hg
      have hmem_l2 : ∀ g ∈ l2, g ∈ l1 ++ Gate.hash a b out :: l2 :=
        fun g hg => List.mem_append_of_mem_right _ (List.mem_cons_of_mem _ hg)
      have hs1a : s1.r1cs.variables'[a]? =
          (mkVariables inputs)[a]? := runGates_untouched _ l1 _ s1 a hr1
        fun g hg o hgo => hnw_a g (hmem_l1 g hg) o hgo
      have hs1b : s1.r1cs.variables'[b]? =
          (mkVariables inputs)[b]? := runGates_untouched _ l1 _ s1 b hr1
        fun g hg o hgo => hnw_b g (hmem_l1 g hg) o hgo
      have hvala : s1.r1cs.variables'[a]? = some ⟨a, ia.value⟩ := by
        rw [hs1a, mkVariables_get, hia]
        rfl
      have hvalb : s1.r1cs.variables'[b]? = some ⟨b, ib.value⟩ := by
        rw [hs1b, mkVariables_get, hib]
        rfl
      have hva' : va = ⟨a, ia.value⟩ := by
        rw [hvars2, setValue_get_ne _ _ _ _ houta, hvala] at hva
        exact (Option.some.inj hva).symm
      have hvb' : vb = ⟨b, ib.value⟩ := by
        rw [hvars2, setValue_get_ne _ _ _ _ houtb, hvalb] at hvb
        exact (Option.some.inj hvb).symm
      -- final values at a and b
      have hfina : st.r1cs.variables'[a]? = s2.r1cs.variables'[a]? :=
        runGates_untouched _ l2 _ st a hrun
          fun g hg o hgo => hnw_a g (hmem_l2 g hg) o hgo
      have hfinb : st.r1cs.variables'[b]? = s2.r1cs.variables'[b]? :=
        runGates_untouched _ l2 _ st b hrun
          fun g hg o hgo => hnw_b g (hmem_l2 g hg) o hgo
      have hs2a : s2.r1cs.variables'[a]? = some ⟨a, ia.value⟩ := by
        rw [hvars2, setValue_get_ne _ _ _ _ houta]
        exact hvala
      have hs2b : s2.r1cs.variables'[b]? = some ⟨b, ib.value⟩ := by
        rw [hvars2, setValue_get_ne _ _ _ _ houtb]
        exact hvalb
      -- final value at out, via stability over l2
      have hw2 : ∀ g ∈ l2, g.writeIdx = some out → g = Gate.hash a b out :=
        fun g hg => huniq g (hmem_l2 g hg)
      have hia2 : s2.inputs[a]? = some ia := by rw [hinp2]; exact hia1
      have hib2 : s2.inputs[b]? = some ib := by rw [hinp2]; exact hib1
      have hout2 : (s2.r1cs.variables'[out]?).map Variable.value =
          some (f ia.value ib.value) := by
        rw [hvo]
        show some vo.value = some (f ia.value ib.value)
        rw [hvoval]
      have houtfin := runGates_out_stable f a b out ia ib l2 s2 st hrun
        hia2 hib2 hw2 hout2
      refine ⟨houtfin, ?_, ?_, ?_⟩
      · rw [hfina, hs2a]; rfl
      · rw [hfinb, hs2b]; rfl
      · refine ⟨⟨[(va, coeffOne)], [(vb, coeffOne)], [(vo, coeffOne)],
          Operation.hash⟩, ?_, rfl, ?_⟩
        · exact runGates_mem_constraints _ l2 s2 st _ hrun
            (by rw [hcons2]; exact List.mem_append_cons_self)
        · have hL : weightedSum [(va, coeffOne)] = ia.value := by
            rw [weightedSum_single, hva']
          have hR : weightedSum [(vb, coeffOne)] = ib.value := by
            rw [weightedSum_single, hvb']
          have hO : weightedSum [(vo, coeffOne)] = f ia.value ib.value := by
            rw [weightedSum_single, hvoval]
          simp [constraintHolds, hL, hR, hO]

/-- Counterexample for C2 as stated: in the circuit whose Hash gate writes
its own input wire (`Hash(0, 1, 0)` on inputs `[0, 0]` with the capability
`a + b + 1`), the final witness is `[1, 0]`, so the witness value at `out`
(namely `1`) differs from the hash of the witness values at `a` and `b`
(namely `hfAddOne 1 0 = 2`), and the single emitted Hash constraint is not
satisfied — `generate_proof` reports `false`. -/
theorem C2_counterexample :
    (cexSelfHash.generate_proof.map fun p =>
      (p.1.r1cs.variables'.map Variable.value, p.2)) = .ok ([1, 0], false) ∧
    hfAddOne 1 0 ≠ 1 := by
  exact ⟨by decide, by decide⟩

/-- Witness for C2 (amended) on the well-formed single-Hash-gate circuit:
the final witness is `[1, 2, 4]` and slot 2 holds the hash of slots 0
and 1. -/
theorem C2_witness :
    ((⟨hashDemo.inputs,
        ⟨[⟨0, 1⟩, ⟨1, 2⟩, ⟨2, 4⟩],
         [⟨[(⟨0, 1⟩, 1)], [(⟨1, 2⟩, 1)], [(⟨2, 4⟩, 1)], Operation.hash⟩]⟩⟩ :
          ProofState).r1cs.variables'[2]?).map Variable.value =
        some (hfAddOne 1 2) ∧
    ((⟨hashDemo.inputs,
        ⟨[⟨0, 1⟩, ⟨1, 2⟩, ⟨2, 4⟩],
         [⟨[(⟨0, 1⟩, 1)], [(⟨1, 2⟩, 1)], [(⟨2, 4⟩, 1)], Operation.hash⟩]⟩⟩ :
          ProofState).r1cs.variables'[0]?).map Variable.value = some 1 ∧
    ((⟨hashDemo.inputs,
        ⟨[⟨0, 1⟩, ⟨1, 2⟩, ⟨2, 4⟩],
         [⟨[(⟨0, 1⟩, 1)], [(⟨1, 2⟩, 1)], [(⟨2, 4⟩, 1)], Operation.hash⟩]⟩⟩ :
          ProofState).r1cs.variables'[1]?).map Variable.value = some 2 := by
  have h := C2_hash_gate_correct hfAddOne hashDemo.inputs hashDemo.gates []
    0 1 2
    ⟨hashDemo.inputs,
      ⟨[⟨0, 1⟩, ⟨1, 2⟩, ⟨2, 4⟩],
       [⟨[(⟨0, 1⟩, 1)], [(⟨1, 2⟩, 1)], [(⟨2, 4⟩, 1)], Operation.hash⟩]⟩⟩
    true (FieldElement.from_i32 1) (FieldElement.from_i32 2)
    (by decide) (by decide)
    (by
      intro g hg o hgo
      rcases List.mem_singleton.mp hg with rfl
      simp [Gate.writeIdx] at hgo
      omega)
    (by
      intro g hg _
      exact List.mem_singleton.mp hg)
    (by decide) (by decide)
  exact ⟨h.1, h.2.1, h.2.2.1⟩

theorem setValue_index (vs : List Variable) (i : Nat) (v : Int)
    (hidx : ∀ (k : Nat) (w : Variable), vs[k]? = some w → w.index = k) :
    ∀ (k : Nat) (w : Variable), (setValue vs i v)[k]? = some w → w.index = k := by
  intro k w h
  by_cases hk : i = k
  · subst hk
    rcases hold : vs[i]? with _ | old
    · rw [setValue, hold] at h
      rw [hold] at h
      cases h
    · rw [setValue_get_eq vs i v old hold] at h
      cases Option.some.inj h
      exact hidx i old hold
  · rw [setValue_get_ne vs i k v hk] at h
    exact hidx k w h

/-- Invariant carried along the gate loop: when no later Hash gate
overwrites an index referenced by an earlier gate, every variable embedded
in any emitted constraint equals the entry at its index of the current
witness vector. -/
theorem runGates_embed (hf : Option (Int → Int → Int)) :
    ∀ (gs : List Gate) (st st' : ProofState),
      runGates hf st gs = .ok st' →
      (∀ (k : Nat) (v : Variable), st.r1cs.variables'[k]? = some v → v.index = k) →
      (∀ cons ∈ st.r1cs.constraints, ∀ t ∈ cons.left ++ cons.right ++ cons.output,
          st.r1cs.variables'[t.1.index]? = some t.1) →
      (∀ cons ∈ st.r1cs.constraints, ∀ t ∈ cons.left ++ cons.right ++ cons.output,
          ∀ g ∈ gs, ∀ o, Gate.writeIdx g = some o → t.1.index ≠ o) →
      gs.Pairwise (fun g g' => ∀ o, Gate.writeIdx g' = some o → o ∉ g.refs) →
      (∀ (k : Nat) (v : Variable), st'.r1cs.variables'[k]? = some v → v.index = k) ∧
      (∀ cons ∈ st'.r1cs.constraints, ∀ t ∈ cons.left ++ cons.right ++ cons.output,
          st'.r1cs.variables'[t.1.index]? = some t.1) := by
  intro gs
  induction gs with
  | nil =>
    intro st st' h hidx hembed _ _
    cases h
    exact ⟨hidx, hembed⟩
  | cons g rest ih =>
    intro st st' h hidx hembed havoid hpair
    simp only [runGates] at h
    cases hs : stepGate hf st g with
    | error e => rw [hs] at h; cases h
    | ok st1 =>
      rw [hs] at h
      have hpair_head : ∀ g' ∈ rest, ∀ o, Gate.writeIdx g' = some o → o ∉ g.refs :=
        (List.pairwise_cons.mp hpair).1
      have hpair_rest := (List.pairwise_cons.mp hpair).2
      -- establish the four facts about st1, by cases on the gate
      have hfacts :
          (∀ (k : Nat) (v : Variable), st1.r1cs.variables'[k]? = some v → v.index = k) ∧
          (∀ cons ∈ st1.r1cs.constraints,
            ∀ t ∈ cons.left ++ cons.right ++ cons.output,
              st1.r1cs.variables'[t.1.index]? = some t.1) ∧
          (∀ cons ∈ st1.r1cs.constraints,
            ∀ t ∈ cons.left ++ cons.right ++ cons.output,
              ∀ g' ∈ rest, ∀ o, Gate.writeIdx g' = some o → t.1.index ≠ o) := by
        cases g with
        | add a b out =>
          obtain ⟨va, vb, vo, hva, hvb, hvo, rfl⟩ :=
            stepGate_add_ok hf st st1 a b out hs
          refine ⟨hidx, ?_, ?_⟩
          · intro cons hc t ht
            rcases List.mem_append.mp hc with hold | hnew
            · exact hembed cons hold t ht
            · rcases List.mem_singleton.mp hnew with rfl
              simp only [List.mem_append, List.mem_singleton] at ht
              rcases ht with (rfl | rfl) | rfl
              · rw [hidx a va hva]; exact hva
              · rw [hidx b vb hvb]; exact hvb
              · rw [hidx out vo hvo]; exact hvo
          · intro cons hc t ht g' hg' o hgo
            rcases List.mem_append.mp hc with hold | hnew
            · exact havoid cons hold t ht g' (List.mem_cons_of_mem _ hg') o hgo
            · rcases List.mem_singleton.mp hnew with rfl
              have hnotin : o ∉ Gate.refs (Gate.add a b out) :=
                hpair_head g' hg' o hgo
              simp only [Gate.refs, List.mem_cons, List.mem_singleton,
                List.not_mem_nil] at hnotin
              push_neg at hnotin
              simp only [List.mem_append, List.mem_singleton] at ht
              rcases ht with (rfl | rfl) | rfl
              · rw [hidx a va hva]; exact fun hc0 => hnotin.1 hc0.symm
              · rw [hidx b vb hvb]; exact fun hc0 => hnotin.2.1 hc0.symm
              · rw [hidx out vo hvo]; exact fun hc0 => hnotin.2.2.1 hc0.symm
        | mul a b out =>
          obtain ⟨va, vb, vo, hva, hvb, hvo, rfl⟩ :=
            stepGate_mul_ok hf st st1 a b out hs
          refine ⟨hidx, ?_, ?_⟩
          · intro cons hc t ht
            rcases List.mem_append.mp hc with hold | hnew
            · exact hembed cons hold t ht
            · rcases List.mem_singleton.mp hnew with rfl
              simp only [List.mem_append, List.mem_singleton] at ht
              rcases ht with (rfl | rfl) | rfl
              · rw [hidx a va hva]; exact hva
              · rw [hidx b vb hvb]; exact hvb
              · rw [hidx out vo hvo]; exact hvo
          · intro cons hc t ht g' hg' o hgo
            rcases List.mem_append.mp hc with hold | hnew
            · exact havoid cons hold t ht g' (List.mem_cons_of_mem _ hg') o hgo
            · rcases List.mem_singleton.mp hnew with rfl
              have hnotin : o ∉ Gate.refs (Gate.mul a b out) :=
                hpair_head g' hg' o hgo
              simp only [Gate.refs, List.mem_cons, List.mem_singleton,
                List.not_mem_nil] at hnotin
              push_neg at hnotin
              simp only [List.mem_append, List.mem_singleton] at ht
              rcases ht with (rfl | rfl) | rfl
              · rw [hidx a va hva]; exact fun hc0 => hnotin.1 hc0.symm
              · rw [hidx b vb hvb]; exact fun hc0 => hnotin.2.1 hc0.symm
              · rw [hidx out vo hvo]; exact fun hc0 => hnotin.2.2.1 hc0.symm
        | hash a b out =>
          obtain ⟨f, ia, ib, hfeq, hia, hib, hinp1, hvars1, va, vb, vo,
            hva, hvb, hvo, hvoval, hcons1⟩ :=
            stepGate_hash_ok hf st st1 a b out hs
          have hidx1 : ∀ (k : Nat) (v : Variable),
              st1.r1cs.variables'[k]? = some v → v.index = k := by
            rw [hvars1]
            exact setValue_index _ _ _ hidx
          refine ⟨hidx1, ?_, ?_⟩
          · intro cons hc t ht
            rw [hcons1] at hc
            rcases List.mem_append.mp hc with hold | hnew
            · have htne : t.1.index ≠ out :=
                havoid cons hold t ht (Gate.hash a b out)
                  (List.mem_cons_self _ _) out rfl
              rw [hvars1, setValue_get_ne _ _ _ _ fun hco => htne hco.symm]
              exact hembed cons hold t ht
            · rcases List.mem_singleton.mp hnew with rfl
              simp only [List.mem_append, List.mem_singleton] at ht
              rcases ht with (rfl | rfl) | rfl
              · rw [hidx1 a va hva]; exact hva
              · rw [hidx1 b vb hvb]; exact hvb
              · rw [hidx1 out vo hvo]; exact hvo
          · intro cons hc t ht g' hg' o hgo
            rw [hcons1] at hc
            rcases List.mem_append.mp hc with hold | hnew
            · exact havoid cons hold t ht g' (List.mem_cons_of_mem _ hg') o hgo
            · rcases List.mem_singleton.mp hnew with rfl
              have hnotin : o ∉ Gate.refs (Gate.hash a b out) :=
                hpair_head g' hg' o hgo
              simp only [Gate.refs, List.mem_cons, List.mem_singleton,
                List.not_mem_nil] at hnotin
              push_neg at hnotin
              simp only [List.mem_append, List.mem_singleton] at ht
              rcases ht with (rfl | rfl) | rfl
              · rw [hidx1 a va hva]; exact fun hc0 => hnotin.1 hc0.symm
              · rw [hidx1 b vb hvb]; exact fun hc0 => hnotin.2.1 hc0.symm
              · rw [hidx1 out vo hvo]; exact fun hc0 => hnotin.2.2.1 hc0.symm
      exact ih st1 st' h hfacts.1 hfacts.2.1 hfacts.2.2 hpair_rest

theorem refreshTerm_id (vars : List Variable) (t : Variable × Int)
    (h : vars[t.1.index]? = some t.1) : refreshTerm vars t = t := by
  rw [refreshTerm, h]

theorem refreshConstraint_id (vars : List Variable) (cons : Constraint)
    (h : ∀ t ∈ cons.left ++ cons.right ++ cons.output,
      vars[t.1.index]? = some t.1) :
    refreshConstraint vars cons = cons := by
  cases cons with
  | mk l r o op =>
    have hl : l.map (refreshTerm vars) = l :=
      (List.map_congr_left fun t ht =>
        refreshTerm_id vars t (h t (by simp [ht]))).trans (List.map_id l)
    have hr : r.map (refreshTerm vars) = r :=
      (List.map_congr_left fun t ht =>
        refreshTerm_id vars t (h t (by simp [ht]))).trans (List.map_id r)
    have ho : o.map (refreshTerm vars) = o :=
      (List.map_congr_left fun t ht =>
        refreshTerm_id vars t (h t (by simp [ht]))).trans (List.map_id o)
    show Constraint.mk (l.map (refreshTerm vars)) (r.map (refreshTerm vars))
      (o.map (refreshTerm vars)) op = Constraint.mk l r o op
    rw [hl, hr, ho]

theorem refreshR1CS_id (r : R1CS)
    (hembed : ∀ cons ∈ r.constraints,
      ∀ t ∈ cons.left ++ cons.right ++ cons.output,
        r.variables'[t.1.index]? = some t.1) :
    refreshR1CS r = r := by
  cases r with
  | mk vars conss =>
    show R1CS.mk vars (conss.map (refreshConstraint vars)) = R1CS.mk vars conss
    have : conss.map (refreshConstraint vars) = conss :=
      (List.map_congr_left fun cons hc =>
        refreshConstraint_id vars cons (hembed cons hc)).trans (List.map_id conss)
    rw [this]

/-- C1 (amended).  When no Hash gate of the circuit overwrites a wire index
referenced by an earlier gate, every `Variable` embedded in any constraint
of the compiled R1CS carries the same value as the entry at the same index
of the witness vector, so replacing each embedded value by the current
witness value (`refreshR1CS`) changes nothing and `is_satisfied` returns
the same boolean for any hash function.  (Without that restriction the
embedded copies can go stale: see the counterexample.) -/
theorem C1_embedded_current :
    ∀ (c : Circuit) (st : ProofState) (v : Bool),
      c.gates.Pairwise (fun g g' => ∀ o, Gate.writeIdx g' = some o → o ∉ g.refs) →
      c.generate_proof = .ok (st, v) →
      (∀ cons ∈ st.r1cs.constraints,
        ∀ t ∈ cons.left ++ cons.right ++ cons.output,
          st.r1cs.variables'[t.1.index]? = some t.1) ∧
      refreshR1CS st.r1cs = st.r1cs ∧
      ∀ hashFn, (refreshR1CS st.r1cs).is_satisfied hashFn =
        st.r1cs.is_satisfied hashFn := by
  intro c st v hpair hok
  obtain ⟨hrun, _⟩ := generate_proof_ok c st v hok
  obtain ⟨hidx', hembed'⟩ := runGates_embed c.hash_function c.gates
    (initState c) st hrun
    (fun k w h => mkVariables_index c.inputs k w h)
    (fun cons hc => absurd hc (List.not_mem_nil cons))
    (fun cons hc => absurd hc (List.not_mem_nil cons))
    hpair
  have hrefresh : refreshR1CS st.r1cs = st.r1cs := refreshR1CS_id st.r1cs hembed'
  exact ⟨hembed', hrefresh, fun hashFn => by rw [hrefresh]⟩

/-- Counterexample for C1 as stated: in `cexStale` the Add constraint embeds
witness slot 2 with its pre-hash value 3, the later Hash gate overwrites
slot 2 with 4, and `is_satisfied` (which evaluates the embedded copies)
returns `true` while the same check over the current witness values
(`refreshR1CS`) returns `false` — the boolean is not invariant under
replacing embedded values by current witness values. -/
theorem C1_counterexample :
    (cexStale.generate_proof.map fun p =>
      (p.2, p.1.r1cs.is_satisfied hfAddOne,
       (refreshR1CS p.1.r1cs).is_satisfied hfAddOne,
       p.1.r1cs.constraints.map Constraint.output,
       p.1.r1cs.variables')) =
    .ok (true, true, false, [[(⟨2, 3⟩, 1)], [(⟨2, 4⟩, 1)]],
      [⟨0, 1⟩, ⟨1, 2⟩, ⟨2, 4⟩]) := by
  rfl

/-- Witness for C1 (amended) on the `main.rs` addition circuit. -/
theorem C1_witness :
    refreshR1CS ⟨[⟨0, 10⟩, ⟨1, 20⟩, ⟨2, 30⟩],
      [⟨[(⟨0, 10⟩, 1)], [(⟨1, 20⟩, 1)], [(⟨2, 30⟩, 1)], Operation.add⟩]⟩ =
    ⟨[⟨0, 10⟩, ⟨1, 20⟩, ⟨2, 30⟩],
      [⟨[(⟨0, 10⟩, 1)], [(⟨1, 20⟩, 1)], [(⟨2, 30⟩, 1)], Operation.add⟩]⟩ := by
  have h := C1_embedded_current addDemo
    ⟨addDemo.inputs, ⟨[⟨0, 10⟩, ⟨1, 20⟩, ⟨2, 30⟩],
      [⟨[(⟨0, 10⟩, 1)], [(⟨1, 20⟩, 1)], [(⟨2, 30⟩, 1)], Operation.add⟩]⟩⟩ true
    (by simp [addDemo]) (by decide)
  exact h.2.1

theorem nextLevel_length (hash : FieldElement → FieldElement → FieldElement) :
    ∀ l : List FieldElement, (nextLevel hash l).length = (l.length + 1) / 2
  | [] => by simp [nextLevel]
  | [x] => by simp [nextLevel]
  | x :: y :: rest => by
    have ih := nextLevel_length hash rest
    simp only [nextLevel, List.length_cons, ih]
    omega

theorem nextLevel_get (hash : FieldElement → FieldElement → FieldElement) :
    ∀ (l : List FieldElement) (j : Nat), j < (nextLevel hash l).length →
      (nextLevel hash l)[j]? = some (hash (l.getD (2 * j) dummyF)
        (l.getD (min (2 * j + 1) (l.length - 1)) dummyF))
  | [], j, h => absurd h (by simp [nextLevel])
  | [x], j, h => by
    have hj : j = 0 := by
      simp only [nextLevel, List.length_cons, List.length_nil] at h
      omega
    subst hj
    simp [nextLevel]
  | x :: y :: rest, 0, h => by
    have hmin : min (2 * 0 + 1) ((x :: y :: rest).length - 1) = 1 := by
      simp only [List.length_cons]
      omega
    rw [hmin]
    simp [nextLevel]
  | x :: y :: rest, j + 1, h => by
    have h' : j < (nextLevel hash rest).length := by
      simp only [nextLevel, List.length_cons] at h
      omega
    have hn : 1 ≤ rest.length := by
      rw [nextLevel_length hash rest] at h'
      omega
    have ih := nextLevel_get hash rest j h'
    have e1 : 2 * (j + 1) = (2 * j + 1) + 1 := by omega
    simp only [nextLevel, List.getElem?_cons_succ, e1]
    have e2 : min (2 * j + 1 + 1 + 1) ((x :: y :: rest).length - 1) =
        (min (2 * j + 1) (rest.length - 1) + 1) + 1 := by
      simp only [List.length_cons]
      omega
    rw [e2]
    simp only [List.getD_cons_succ]
    exact ih

theorem buildLevelsAux_head (hash : FieldElement → FieldElement → FieldElement)
    (fuel : Nat) (current : List FieldElement) :
    (buildLevelsAux hash fuel current).head? = some current := by
  cases fuel with
  | zero => rfl
  | succ n =>
    rw [buildLevelsAux]
    split <;> rfl

theorem buildLevelsAux_chain (hash : FieldElement → FieldElement → FieldElement) :
    ∀ (fuel : Nat) (current : List FieldElement), current.length ≤ fuel →
      ∀ (i : Nat) (li li1 : List FieldElement),
        (buildLevelsAux hash fuel current)[i]? = some li →
        (buildLevelsAux hash fuel current)[i + 1]? = some li1 →
        li1 = nextLevel hash li := by
  intro fuel
  induction fuel with
  | zero =>
    intro current hle i li li1 h1 h2
    have hnone : ([current] : List (List FieldElement))[i + 1]? = none :=
      List.getElem?_eq_none (by simp)
    rw [buildLevelsAux, hnone] at h2
    cases h2
  | succ n ih =>
    intro current hle i li li1 h1 h2
    rw [buildLevelsAux] at h1 h2
    by_cases hlen : current.length > 1
    · rw [if_pos hlen] at h1 h2
      have hfuel2 : (nextLevel hash current).length ≤ n := by
        rw [nextLevel_length]
        omega
      cases i with
      | zero =>
        have hli : li = current := by
          rw [List.getElem?_cons_zero] at h1
          exact (Option.some.inj h1).symm
        rw [List.getElem?_cons_succ] at h2
        have hhead := buildLevelsAux_head hash n (nextLevel hash current)
        rw [List.head?_eq_getElem?] at hhead
        rw [hhead] at h2
        rw [hli]
        exact (Option.some.inj h2).symm
      | succ i' =>
        rw [List.getElem?_cons_succ] at h1 h2
        exact ih (nextLevel hash current) hfuel2 i' li li1 h1 h2
    · rw [if_neg hlen] at h1 h2
      have : ([current] : List (List FieldElement))[i + 1]? = none :=
        List.getElem?_eq_none (by simp)
      rw [this] at h2
      cases h2

theorem buildLevelsAux_gt1 (hash : FieldElement → FieldElement → FieldElement) :
    ∀ (fuel : Nat) (current : List FieldElement), current.length ≤ fuel →
      ∀ (i : Nat) (li : List FieldElement),
        (buildLevelsAux hash fuel current)[i]? = some li →
        i + 1 < (buildLevelsAux hash fuel current).length → 1 < li.length := by
  intro fuel
  induction fuel with
  | zero =>
    intro current hle i li h1 h2
    rw [buildLevelsAux] at h2
    simp at h2
  | succ n ih =>
    intro current hle i li h1 h2
    rw [buildLevelsAux] at h1 h2
    by_cases hlen : current.length > 1
    · rw [if_pos hlen] at h1 h2
      have hfuel2 : (nextLevel hash current).length ≤ n := by
        rw [nextLevel_length]
        omega
      cases i with
      | zero =>
        rw [List.getElem?_cons_zero] at h1
        rw [← Option.some.inj h1]
        exact hlen
      | succ i' =>
        rw [List.getElem?_cons_succ] at h1
        simp only [List.length_cons] at h2
        exact ih (nextLevel hash current) hfuel2 i' li h1 (by omega)
    · rw [if_neg hlen] at h1 h2
      simp at h2

theorem buildLevelsAux_last (hash : FieldElement → FieldElement → FieldElement) :
    ∀ (fuel : Nat) (current : List FieldElement), current.length ≤ fuel →
      current ≠ [] →
      ∃ r, (buildLevelsAux hash fuel current).getLast? = some [r] := by
  intro fuel
  induction fuel with
  | zero =>
    intro current hle hne
    exact absurd (List.length_eq_zero.mp (by omega)) hne
  | succ n ih =>
    intro current hle hne
    rw [buildLevelsAux]
    by_cases hlen : current.length > 1
    · rw [if_pos hlen]
      have hfuel2 : (nextLevel hash current).length ≤ n := by
        rw [nextLevel_length]
        omega
      have hne2 : nextLevel hash current ≠ [] := by
        intro hc
        have hlen2 := nextLevel_length hash current
        rw [hc] at hlen2
        simp only [List.length_nil] at hlen2
        omega
      obtain ⟨r, hr⟩ := ih (nextLevel hash current) hfuel2 hne2
      refine ⟨r, ?_⟩
      cases hL : buildLevelsAux hash n (nextLevel hash current) with
      | nil =>
        have := buildLevelsAux_head hash n (nextLevel hash current)
        rw [hL] at this
        cases this
      | cons a t =>
        rw [List.getLast?_cons_cons]
        rw [hL] at hr
        exact hr
    · rw [if_neg hlen]
      have hone : current.length = 1 := by
        have hp := List.length_pos.mpr hne
        omega
      obtain ⟨x, rfl⟩ := List.length_eq_one.mp hone
      exact ⟨x, rfl⟩

/-- Unpacking of a successful `MerkleTree::new`. -/
theorem merkleNew_elim (hash : FieldElement → FieldElement → FieldElement)
    (leaves : List FieldElement) (t : MerkleTree)
    (h : MerkleTree.new hash leaves = some t) :
    t.leaves = leaves ∧ t.levels = buildLevels hash leaves ∧
      t.levels.getLast? = some [t.root] := by
  simp only [MerkleTree.new] at h
  cases hl : (buildLevels hash leaves).getLast? with
  | none => rw [hl] at h; cases h
  | some last =>
    rw [hl] at h
    dsimp only at h
    cases hr : last[0]? with
    | none => rw [hr] at h; cases h
    | some r =>
      rw [hr] at h
      cases h
      refine ⟨rfl, rfl, ?_⟩
      -- the last level is [r]: from the invariant it has length 1; but here
      -- we only know last[0]? = some r and, from `buildLevelsAux_last`, that
      -- the last level is a singleton.
      by_cases hne : leaves = []
      · subst hne
        have hbl : buildLevels hash ([] : List FieldElement) = [[]] := by
          show buildLevelsAux hash ([] : List FieldElement).length [] = [[]]
          simp only [List.length_nil]
          rw [buildLevelsAux]
        rw [hbl] at hl
        simp only [List.getLast?_eq_getElem?, List.length_cons,
          List.length_nil, List.getElem?_cons_zero] at hl
        cases Option.some.inj hl
        simp at hr
      · obtain ⟨r', hr'⟩ := buildLevelsAux_last hash leaves.length leaves
          le_rfl hne
        rw [show buildLevels hash leaves =
          buildLevelsAux hash leaves.length leaves from rfl] at hl
        rw [hr'] at hl
        cases Option.some.inj hl
        rw [List.getElem?_cons_zero] at hr
        rw [← Option.some.inj hr]
        exact hr'

/-- C5 (confirmed).  For a non-empty leaf vector, `MerkleTree::new` builds
level 0 equal to the leaves, each next level pairing adjacent elements
left-to-right with the odd tail hashed with itself — so
`levels[i+1].length = ceil(levels[i].length / 2)` and
`levels[i+1][j] = hash(levels[i][2j], levels[i][min(2j+1, len-1)])` —
stops at the first level of length 1, and sets the root to that level's
single element; a single-leaf tree's root is that leaf. -/
theorem C5_merkle_build :
    ∀ (hash : FieldElement → FieldElement → FieldElement)
      (leaves : List FieldElement), leaves ≠ [] →
      ∃ t, MerkleTree.new hash leaves = some t ∧
        t.leaves = leaves ∧
        t.levels.head? = some leaves ∧
        (∀ (i : Nat) (li li1 : List FieldElement),
          t.levels[i]? = some li → t.levels[i + 1]? = some li1 →
          li1.length = (li.length + 1) / 2 ∧
          ∀ j < li1.length,
            li1[j]? = some (hash (li.getD (2 * j) dummyF)
              (li.getD (min (2 * j + 1) (li.length - 1)) dummyF))) ∧
        (∀ (i : Nat) (li : List FieldElement),
          t.levels[i]? = some li → i + 1 < t.levels.length → 1 < li.length) ∧
        t.levels.getLast? = some [t.root] ∧
        (∀ x, leaves = [x] → t.root = x) := by
  intro hash leaves hne
  obtain ⟨r, hlast⟩ := buildLevelsAux_last hash leaves.length leaves le_rfl hne
  have hnew : MerkleTree.new hash leaves =
      some ⟨leaves, buildLevels hash leaves, r⟩ := by
    simp only [MerkleTree.new]
    rw [show buildLevels hash leaves =
      buildLevelsAux hash leaves.length leaves from rfl, hlast]
    rfl
  obtain ⟨hleq, hlvl, hlastlvl⟩ := merkleNew_elim hash leaves _ hnew
  refine ⟨⟨leaves, buildLevels hash leaves, r⟩, hnew, rfl, ?_, ?_, ?_, ?_, ?_⟩
  · exact buildLevelsAux_head hash leaves.length leaves
  · intro i li li1 h1 h2
    have hchain := buildLevelsAux_chain hash leaves.length leaves le_rfl
      i li li1 h1 h2
    subst hchain
    exact ⟨nextLevel_length hash li, fun j hj => nextLevel_get hash li j hj⟩
  · exact buildLevelsAux_gt1 hash leaves.length leaves le_rfl
  · exact hlastlvl
  · intro x hx
    subst hx
    have hhead := buildLevelsAux_head hash ([x] : List FieldElement).length [x]
    have hhead' : (buildLevels hash [x])[0]? = some [x] := by
      rw [← List.head?_eq_getElem?]
      exact hhead
    have hlen1 : (buildLevels hash [x]).length = 1 := by
      by_contra hc
      have hpos : 0 < (buildLevels hash [x]).length := by
        by_contra hc2
        rw [List.getElem?_eq_none (by omega)] at hhead'
        cases hhead'
      have hone := buildLevelsAux_gt1 hash ([x] : List FieldElement).length [x]
        le_rfl 0 [x] hhead'
        (by show 0 + 1 < (buildLevels hash [x]).length; omega)
      simp at hone
    have hlast0 : (buildLevels hash [x]).getLast? = (buildLevels hash [x])[0]? := by
      rw [List.getLast?_eq_getElem?, hlen1]
    rw [hlast0, hhead'] at hlastlvl
    have hxr := List.cons.inj (Option.some.inj hlastlvl)
    exact hxr.1.symm

/-- Witness for C5 on the three concrete leaves under the additive hash. -/
theorem C5_witness :
    MerkleTree.new FieldElement.add leaves3 = some tree3 ∧
    tree3.leaves = leaves3 ∧ tree3.levels.head? = some leaves3 := by
  obtain ⟨t, hn, hleaves, hhead, _⟩ :=
    C5_merkle_build FieldElement.add leaves3 (by decide)
  have ht : t = tree3 := by
    have h2 : MerkleTree.new FieldElement.add leaves3 = some tree3 := by decide
    rw [hn] at h2
    exact Option.some.inj h2
  subst ht
  exact ⟨hn, hleaves, hhead⟩

/-- A level index that is in range yields a sibling. -/
theorem siblingAt_isSome (level : List FieldElement) (idx : Nat)
    (hidx : idx < level.length) : ∃ s, siblingAt level idx = some s := by
  unfold siblingAt
  split
  · split
    · exact ⟨_, List.getElem?_eq_getElem (by assumption)⟩
    · exact ⟨_, List.getElem?_eq_getElem hidx⟩
  · exact ⟨_, List.getElem?_eq_getElem (by omega)⟩

/-- The level walk of `get_proof` over the built levels: for a valid index
it succeeds, produces one sibling per non-root level in leaf-to-root order,
and at level `k` selects the sibling of index `idx / 2^k`. -/
theorem getProof_aux (hash : FieldElement → FieldElement → FieldElement) :
    ∀ (fuel : Nat) (current : List FieldElement) (idx : Nat),
      current.length ≤ fuel → idx < current.length →
      ∃ path, getProofGo ((buildLevelsAux hash fuel current).take
          ((buildLevelsAux hash fuel current).length - 1)) idx = some path ∧
        path.length = (buildLevelsAux hash fuel current).length - 1 ∧
        ∀ (k : Nat) (lk : List FieldElement), k < path.length →
          (buildLevelsAux hash fuel current)[k]? = some lk →
          path[k]? = siblingAt lk (idx / 2 ^ k) := by
  intro fuel
  induction fuel with
  | zero =>
    intro current idx hle hidx
    omega
  | succ n ih =>
    intro current idx hle hidx
    by_cases hlen : current.length > 1
    · have hbuild : buildLevelsAux hash (n + 1) current =
          current :: buildLevelsAux hash n (nextLevel hash current) := by
        rw [buildLevelsAux, if_pos hlen]
      rw [hbuild]
      have hLne : buildLevelsAux hash n (nextLevel hash current) ≠ [] := by
        intro hc
        have := buildLevelsAux_head hash n (nextLevel hash current)
        rw [hc] at this
        cases this
      have hLlen : 1 ≤ (buildLevelsAux hash n (nextLevel hash current)).length :=
        List.length_pos.mpr hLne
      have htake : (current :: buildLevelsAux hash n (nextLevel hash current)).take
          ((current :: buildLevelsAux hash n (nextLevel hash current)).length - 1) =
          current :: (buildLevelsAux hash n (nextLevel hash current)).take
            ((buildLevelsAux hash n (nextLevel hash current)).length - 1) := by
        simp only [List.length_cons, Nat.add_sub_cancel]
        rw [show (buildLevelsAux hash n (nextLevel hash current)).length =
          ((buildLevelsAux hash n (nextLevel hash current)).length - 1) + 1 by omega]
        rw [List.take_succ_cons]
        rw [show ((buildLevelsAux hash n (nextLevel hash current)).length - 1 + 1) - 1 =
          (buildLevelsAux hash n (nextLevel hash current)).length - 1 by omega]
      obtain ⟨s, hs⟩ := siblingAt_isSome current idx hidx
      have hidx2 : idx / 2 < (nextLevel hash current).length := by
        rw [nextLevel_length]
        omega
      have hfuel2 : (nextLevel hash current).length ≤ n := by
        rw [nextLevel_length]
        omega
      obtain ⟨p, hp, hplen, hpget⟩ := ih (nextLevel hash current) (idx / 2)
        hfuel2 hidx2
      refine ⟨s :: p, ?_, ?_, ?_⟩
      · rw [htake]
        simp only [getProofGo, hs, hp]
      · simp only [List.length_cons, hplen]
        omega
      · intro k lk hk hlk
        cases k with
        | zero =>
          rw [List.getElem?_cons_zero] at hlk
          cases Option.some.inj hlk
          rw [List.getElem?_cons_zero]
          rw [show idx / 2 ^ 0 = idx by simp]
          exact hs.symm
        | succ k' =>
          rw [List.getElem?_cons_succ] at hlk
          rw [List.getElem?_cons_succ]
          simp only [List.length_cons] at hk
          rw [hpget k' lk (by omega) hlk]
          rw [show idx / 2 / 2 ^ k' = idx / 2 ^ (k' + 1) by
            rw [Nat.div_div_eq_div_mul, pow_succ, Nat.mul_comm]]
    · have hbuild : buildLevelsAux hash (n + 1) current = [current] := by
        rw [buildLevelsAux, if_neg hlen]
      rw [hbuild]
      refine ⟨[], rfl, rfl, ?_⟩
      intro k lk hk _
      exact absurd hk (by simp)

/-- C6 (confirmed).  For every tree built by `MerkleTree::new` and every
valid leaf index, `get_proof` walks the levels below the root, appends at
each level the sibling given by the even/odd rule (`level[index+1]` for an
even index, or `level[index]` itself when `index+1` is out of range;
`level[index-1]` for an odd index) and halves the index, returning the
siblings in leaf-to-root order; in particular for a three-leaf tree
`[A, B, C]`, `get_proof 2` returns `[C, hash A B]`. -/
theorem C6_get_proof :
    ∀ hash : FieldElement → FieldElement → FieldElement,
      (∀ (leaves : List FieldElement) (t : MerkleTree) (idx : Nat),
        MerkleTree.new hash leaves = some t → idx < leaves.length →
        ∃ path, t.get_proof idx = some path ∧
          path.length = t.levels.length - 1 ∧
          ∀ (k : Nat) (lk : List FieldElement), k < path.length →
            t.levels[k]? = some lk →
            path[k]? = siblingAt lk (idx / 2 ^ k)) ∧
      (∀ A B C t3, MerkleTree.new hash [A, B, C] = some t3 →
        t3.get_proof 2 = some [C, hash A B]) := by
  intro hash
  constructor
  · intro leaves t idx hnew hidx
    obtain ⟨-, hlvl, -⟩ := merkleNew_elim hash leaves t hnew
    obtain ⟨path, hp, hplen, hpget⟩ := getProof_aux hash leaves.length leaves
      idx le_rfl hidx
    refine ⟨path, ?_, ?_, ?_⟩
    · rw [MerkleTree.get_proof, hlvl]
      exact hp
    · rw [hlvl]
      exact hplen
    · intro k lk hk hlk
      rw [hlvl] at hlk
      exact hpget k lk hk hlk
  · intro A B C t3 hnew
    have hcomp : MerkleTree.new hash [A, B, C] =
        some ⟨[A, B, C],
          [[A, B, C], [hash A B, hash C C], [hash (hash A B) (hash C C)]],
          hash (hash A B) (hash C C)⟩ := by
      simp only [MerkleTree.new, buildLevels]
      rw [show ([A, B, C] : List FieldElement).length = 3 from rfl]
      rw [buildLevelsAux]
      rw [if_pos (by simp)]
      rw [show nextLevel hash [A, B, C] = [hash A B, hash C C] by
        simp [nextLevel]]
      rw [buildLevelsAux]
      rw [if_pos (by simp)]
      rw [show nextLevel hash [hash A B, hash C C] =
        [hash (hash A B) (hash C C)] by simp [nextLevel]]
      rw [buildLevelsAux]
      rw [if_neg (by simp)]
      rfl
    rw [hcomp] at hnew
    cases Option.some.inj hnew
    show getProofGo _ 2 = _
    rw [show ([[A, B, C], [hash A B, hash C C],
        [hash (hash A B) (hash C C)]].take
          ([[A, B, C], [hash A B, hash C C],
            [hash (hash A B) (hash C C)]].length - 1) :
        List (List FieldElement)) =
      [[A, B, C], [hash A B, hash C C]] by simp]
    simp [getProofGo, siblingAt]

/-- Witness for C3 on a concrete one-constraint system with the additive
test hash. -/
theorem C3_witness : demoR1CS.is_satisfied hfSum = true :=
  (C3_is_satisfied_spec hfSum demoR1CS).1.mpr (by
    intro c hc
    simp only [demoR1CS] at hc
    rcases List.mem_singleton.mp hc with rfl
    simp [weightedSum])

/-- Witness for C6 on the three concrete leaves under the additive hash. -/
theorem C6_witness :
    tree3.get_proof 2 =
      some [FieldElement.from_i32 3,
        FieldElement.add (FieldElement.from_i32 1) (FieldElement.from_i32 2)] :=
  (C6_get_proof FieldElement.add).2 (FieldElement.from_i32 1)
    (FieldElement.from_i32 2) (FieldElement.from_i32 3) tree3 (by decide)

end ZKP
